import Mathlib

/-!
Verification of the multigrid relaxation solver (1-D Poisson boundary-value
problem) from the course notebook.  The numpy arrays of rationals-valued grid
data are embedded as `List ℚ`; numpy's elementwise arithmetic with 1-D
broadcasting and its slice assignments are modelled exactly, including the
error they raise on incompatible shapes, so the fallible operations return
`Except NpErr`.  The recursive V-cycle and full-multigrid controllers recurse
on the grid length, which strictly shrinks; they are written with an explicit
fuel argument (structurally recursive) and the wrappers instantiate the fuel
with the grid length, which always suffices.
-/

namespace Multigrid

/-- A grid field: the numpy 1-D array of values at the grid points. -/
abbrev Field := List ℚ

/-- Indexing `v[i]` (in-range in every use below; out of range gives 0). -/
def gd (v : Field) (i : Nat) : ℚ := v.getD i 0

/-- Build a field of length `n` from the formula for its entries. -/
def mk (n : Nat) (f : Nat → ℚ) : Field := (List.range n).map f

/-- Errors numpy raises on shape-incompatible elementwise ops / assignments. -/
inductive NpErr where
  /-- elementwise op on incompatible 1-D shapes -/
  | bcast (la lb : Nat) : NpErr
  /-- slice assignment `dst[1:-1] = rhs` with incompatible length -/
  | asgn (target given : Nat) : NpErr

/-- numpy elementwise binary operation on 1-D arrays with broadcasting:
equal lengths act pointwise, a length-1 operand is stretched, anything else
raises. -/
def bop (f : ℚ → ℚ → ℚ) (a b : Field) : Except NpErr Field :=
  if a.length = b.length then .ok (List.zipWith f a b)
  else if a.length = 1 then .ok (b.map (fun y => f (gd a 0) y))
  else if b.length = 1 then .ok (a.map (fun x => f x (gd b 0)))
  else .error (.bcast a.length b.length)

/-- numpy slice assignment `dst[1:-1] = rhs` (broadcasting a length-1 rhs). -/
def assignInner (dst rhs : Field) : Except NpErr Field :=
  if rhs.length = dst.length - 2 then
    .ok (dst.take 1 ++ rhs ++ dst.drop (1 + (dst.length - 2)))
  else if rhs.length = 1 then
    .ok (dst.take 1 ++ List.replicate (dst.length - 2) (gd rhs 0) ++
         dst.drop (1 + (dst.length - 2)))
  else .error (.asgn (dst.length - 2) rhs.length)

/-- One body of the loop in `jacobi`: the state is the pair
`(phi, phistar)`; `phistar[1:-1] = 0.5*(phi[:-2]+phi[2:]+h**2*F[1:-1])`
(slices `phi[:-2]`, `phi[2:]`, `F[1:-1]`, summed left to right, then scaled
by 0.5) followed by `phi = (1-w)*phi + w*phistar`. -/
def jacobiStep (F : Field) (h w : ℚ) (s : Field × Field) :
    Except NpErr (Field × Field) :=
  bop (· + ·) (s.1.take (s.1.length - 2)) (s.1.drop 2) >>= fun r1 =>
  bop (· + ·) r1 (((F.drop 1).take (F.length - 2)).map (fun x => h ^ 2 * x)) >>= fun r2 =>
  assignInner s.2 (r2.map (fun x => (1 / 2) * x)) >>= fun phistar =>
  bop (· + ·) (s.1.map (fun x => (1 - w) * x)) (phistar.map (fun x => w * x)) >>= fun phi1 =>
  .ok (phi1, phistar)

/-- The `for iter in range(Niter)` loop of `jacobi`. -/
def jacobiIter (F : Field) (h w : ℚ) : Nat → Field × Field →
    Except NpErr (Field × Field)
  | 0, s => .ok s
  | k + 1, s => jacobiStep F h w s >>= jacobiIter F h w k

/-- `jacobi(phi,F,h,Niter,w)`: `Niter` iterations of the damped Jacobi
method with damping factor `w`; `phistar` starts as `phi.copy()`. -/
def jacobi (phi F : Field) (h : ℚ) (Niter : Nat) (w : ℚ) : Except NpErr Field :=
  (jacobiIter F h w Niter (phi, phi)).map Prod.fst

/-- `residual(phi,F,h)`: `d2phi` is zero-filled, its interior is set to
`-phi[:-2]-phi[2:]+2*phi[1:-1]`, and `h**2*F-d2phi` is returned. -/
def residual (phi F : Field) (h : ℚ) : Except NpErr Field :=
  let d2phi := mk phi.length (fun i =>
    if 0 < i ∧ i + 1 < phi.length then
      -gd phi (i - 1) - gd phi (i + 1) + 2 * gd phi i
    else 0)
  bop (· - ·) (F.map (fun x => h ^ 2 * x)) d2phi

/-- `prolong(v2h)`: linear interpolation onto the twice-finer grid,
`v1h[::2] = v2h`, `v1h[1::2] = 0.5*(v2h[:-1]+v2h[1:])`; the final
end-point copies are no-ops of the same formulas. -/
def prolong (v2h : Field) : Field :=
  mk (2 * v2h.length - 1) (fun i =>
    if i % 2 = 0 then gd v2h (i / 2)
    else (1 / 2) * (gd v2h (i / 2) + gd v2h (i / 2 + 1)))

/-- `restrict(v1h)`: full weighting onto the twice-coarser grid via the
rolled views `t1,t2,t3` (`np.roll` wraps indices around, hence the `%`),
then the two ends are overwritten with `v1h[0]`, `v1h[-1]` (the end
overwrite happens last, hence is tested first). -/
def restrict (v1h : Field) : Field :=
  mk ((v1h.length + 1) / 2) (fun j =>
    if j = (v1h.length + 1) / 2 - 1 then gd v1h (v1h.length - 1)
    else if j = 0 then gd v1h 0
    else (1 / 4) * (gd v1h ((2 * j + 1) % v1h.length) + 2 * gd v1h (2 * j) +
                    gd v1h ((2 * j - 1) % v1h.length)))

/-- `np.zeros(n)`. -/
def zeros (n : Nat) : Field := List.replicate n 0

/-- `vcycle(phi,F,h,Niter)` with explicit fuel for the recursion on the
(strictly shrinking) grid length; out of fuel the coarse-grid correction
branch is skipped, which never happens when the fuel is at least the
recursion depth (`vcycle` instantiates it with the grid length). -/
def vcycleAux : Nat → Field → Field → ℚ → Nat → Except NpErr Field
  | 0, phi, F, h, Niter => do
      let phi1 ← jacobi phi F h Niter (2 / 3)
      jacobi phi1 F h Niter (2 / 3)
  | fuel + 1, phi, F, h, Niter => do
      let phi1 ← jacobi phi F h Niter (2 / 3)
      if 3 < phi1.length then do
        let r ← residual phi1 F h
        let F2 := restrict r
        let v2 ← vcycleAux fuel (zeros F2.length) (F2.map (fun x => x / h ^ 2))
                   (2 * h) Niter
        let phi2 ← bop (· + ·) phi1 (prolong v2)
        jacobi phi2 F h Niter (2 / 3)
      else
        jacobi phi1 F h Niter (2 / 3)

/-- One V-cycle with a recursive strategy; `Niter` is passed through to the
Jacobi method (Python default `Niter=50`). -/
def vcycle (phi F : Field) (h : ℚ) (Niter : Nat) : Except NpErr Field :=
  vcycleAux phi.length phi F h Niter

/-- `v1h[0],v1h[-1] = bndry[0],bndry[1]` (in that order). -/
def setBndry (v : Field) (b : ℚ × ℚ) : Field :=
  (v.set 0 b.1).set (v.length - 1) b.2

/-- The `for iter in range(Niter): v1h = vcycle(v1h,F,h)` loop of
`fmg_vcycle`; `vcycle` is called with its default `Niter=50`. -/
def fmgLoop (F : Field) (h : ℚ) : Nat → Field → Except NpErr Field
  | 0, v => .ok v
  | k + 1, v => vcycle v F h 50 >>= fmgLoop F h k

/-- `fmg_vcycle(F,h,bndry,Niter)` with explicit fuel for the recursion on
the grid length; the recursive descent calls itself with the default
`Niter=5`. -/
def fmgAux : Nat → Field → ℚ → ℚ × ℚ → Nat → Except NpErr Field
  | 0, F, h, bndry, Niter => fmgLoop F h Niter (setBndry (zeros F.length) bndry)
  | fuel + 1, F, h, bndry, Niter =>
      if 3 < F.length then do
        let v2h ← fmgAux fuel (restrict F) (2 * h) bndry 5
        fmgLoop F h Niter (prolong v2h)
      else fmgLoop F h Niter (setBndry (zeros F.length) bndry)

/-- One full multigrid V-cycle, using a recursive strategy. -/
def fmg_vcycle (F : Field) (h : ℚ) (bndry : ℚ × ℚ) (Niter : Nat) :
    Except NpErr Field :=
  fmgAux F.length F h bndry Niter

/-- The field computed by `solve(bndry,n)`: zero source on `n+1` points,
`phi = fmg_vcycle(F,1.0/n,bndry)` with the default `Niter=5` (the reporting
table printed afterwards is not part of the computation). -/
def solve (bndry : ℚ × ℚ) (n : Nat) : Except NpErr Field :=
  fmg_vcycle (zeros (n + 1)) (1 / (n : ℚ)) bndry 5

/-! ### Basic lemmas about the list toolkit -/

theorem gd_nil (i : Nat) : gd [] i = 0 := rfl

theorem gd_cons_zero (x : ℚ) (xs : Field) : gd (x :: xs) 0 = x := rfl

theorem gd_cons_succ (x : ℚ) (xs : Field) (i : Nat) :
    gd (x :: xs) (i + 1) = gd xs i := rfl

theorem mk_length (n : Nat) (f : Nat → ℚ) : (mk n f).length = n := by
  simp [mk]

theorem gd_mk {n i : Nat} (f : Nat → ℚ) (h : i < n) : gd (mk n f) i = f i := by
  simp [mk, gd, List.getD_eq_getElem?_getD, List.getElem?_map,
    List.getElem?_range h]

theorem gd_replicate {n i : Nat} (c : ℚ) : gd (List.replicate n c) i = if i < n then c else 0 := by
  simp [gd, List.getD_eq_getElem?_getD, List.getElem?_replicate]
  split <;> simp

theorem gd_zeros (n i : Nat) : gd (zeros n) i = 0 := by
  simp [zeros, gd_replicate]

theorem zeros_length (n : Nat) : (zeros n).length = n := by
  simp [zeros]

theorem gd_eq_getElem {v : Field} {i : Nat} (h : i < v.length) : gd v i = v[i] := by
  simp [gd, List.getD_eq_getElem?_getD, List.getElem?_eq_getElem h]

theorem gd_zipWith (f : ℚ → ℚ → ℚ) {a b : Field} {i : Nat}
    (ha : i < a.length) (hb : i < b.length) :
    gd (List.zipWith f a b) i = f (gd a i) (gd b i) := by
  rw [gd_eq_getElem (by simp [List.length_zipWith]; omega),
    gd_eq_getElem ha, gd_eq_getElem hb]
  simp

theorem gd_map (f : ℚ → ℚ) {a : Field} {i : Nat} (ha : i < a.length) :
    gd (a.map f) i = f (gd a i) := by
  rw [gd_eq_getElem (by simpa using ha), gd_eq_getElem ha]
  simp

theorem gd_take {a : Field} {k i : Nat} (h : i < k) : gd (a.take k) i = gd a i := by
  simp [gd, List.getD_eq_getElem?_getD, List.getElem?_take_of_lt h]

theorem gd_drop (a : Field) (k i : Nat) : gd (a.drop k) i = gd a (k + i) := by
  simp [gd, List.getD_eq_getElem?_getD, List.getElem?_drop]

theorem gd_append (a b : Field) (i : Nat) :
    gd (a ++ b) i = if i < a.length then gd a i else gd b (i - a.length) := by
  rcases Nat.lt_or_ge i a.length with h | h
  · simp [gd, List.getD_eq_getElem?_getD, List.getElem?_append_left h, h]
  · simp [gd, List.getD_eq_getElem?_getD, List.getElem?_append_right h,
      Nat.not_lt.mpr h]

theorem ext_gd {a b : Field} (hl : a.length = b.length)
    (h : ∀ i, i < a.length → gd a i = gd b i) : a = b := by
  apply List.ext_getElem hl
  intro i h1 h2
  rw [← gd_eq_getElem h1, ← gd_eq_getElem h2]
  exact h i h1

/-! ### The Except plumbing -/

theorem ok_bind {α β : Type} (a : α) (f : α → Except NpErr β) :
    (Except.ok a >>= f) = f a := rfl

theorem error_bind {α β : Type} (e : NpErr) (f : α → Except NpErr β) :
    ((Except.error e : Except NpErr α) >>= f) = Except.error e := rfl

theorem bop_ok_of_length {f : ℚ → ℚ → ℚ} {a b : Field} (h : a.length = b.length) :
    bop f a b = .ok (List.zipWith f a b) := by
  simp [bop, h]

theorem assignInner_ok_of_length {dst rhs : Field} (h : rhs.length = dst.length - 2) :
    assignInner dst rhs =
      .ok (dst.take 1 ++ rhs ++ dst.drop (1 + (dst.length - 2))) := by
  simp [assignInner, h]

/-! ### The jacobi normal form on length-matched inputs -/

/-- The trial value `0.5*(phi[j-1]+phi[j+1]+h**2*F[j])` as the code
associates it. -/
def trial (phi F : Field) (h : ℚ) (j : Nat) : ℚ :=
  (1 / 2) * ((gd phi (j - 1) + gd phi (j + 1)) + h ^ 2 * gd F j)

/-- The `phistar` array after one loop body: trial values at the interior,
previous `phistar` values at the two ends. -/
def starNext (phi phistar F : Field) (h : ℚ) : Field :=
  mk phi.length (fun j =>
    if 0 < j ∧ j + 1 < phi.length then trial phi F h j else gd phistar j)

theorem starNext_length (phi phistar F : Field) (h : ℚ) :
    (starNext phi phistar F h).length = phi.length := by
  simp [starNext, mk_length]

theorem jacobiStep_ok {phi phistar F : Field} {h w : ℚ}
    (hF : F.length = phi.length) (hs : phistar.length = phi.length) :
    jacobiStep F h w (phi, phistar) =
      .ok (mk phi.length
            (fun j => (1 - w) * gd phi j + w * gd (starNext phi phistar F h) j),
           starNext phi phistar F h) := by
  have lA : (phi.take (phi.length - 2)).length = phi.length - 2 := by
    simp only [List.length_take]; omega
  have lB : (phi.drop 2).length = phi.length - 2 := by
    simp only [List.length_drop]
  have lC : (((F.drop 1).take (F.length - 2)).map (fun x => h ^ 2 * x)).length
      = phi.length - 2 := by
    simp only [List.length_map, List.length_take, List.length_drop]; omega
  have lD : (List.zipWith (· + ·) (phi.take (phi.length - 2)) (phi.drop 2)).length
      = phi.length - 2 := by
    simp only [List.length_zipWith, lA, lB, Nat.min_self]
  have lE : ((List.zipWith (· + ·)
      (List.zipWith (· + ·) (phi.take (phi.length - 2)) (phi.drop 2))
      (((F.drop 1).take (F.length - 2)).map (fun x => h ^ 2 * x))).map
        (fun x => (1 / 2) * x)).length = phi.length - 2 := by
    simp only [List.length_map, List.length_zipWith, lD, lC, Nat.min_self]
  have lE2 : phi.length - 2 = phistar.length - 2 := by rw [hs]
  simp only [jacobiStep]
  simp only [bop_ok_of_length (lA.trans lB.symm), ok_bind,
    bop_ok_of_length (lD.trans lC.symm), ok_bind,
    assignInner_ok_of_length (lE.trans lE2), ok_bind]
  have hout : phistar.take 1 ++
      (List.zipWith (· + ·)
        (List.zipWith (· + ·) (phi.take (phi.length - 2)) (phi.drop 2))
        (((F.drop 1).take (F.length - 2)).map (fun x => h ^ 2 * x))).map
          (fun x => (1 / 2) * x) ++
      phistar.drop (1 + (phistar.length - 2)) = starNext phi phistar F h := by
    apply ext_gd
    · simp only [List.length_append, List.length_take, List.length_drop, lE,
        starNext_length, hs]
      omega
    · intro i hi
      have hilen : i < phi.length := by
        simp only [List.length_append, List.length_take, List.length_drop, lE,
          hs] at hi
        omega
      have hp1 : 0 < phi.length := by omega
      have htk : (phistar.take 1).length = 1 := by
        simp only [List.length_take]; omega
      rw [starNext, gd_mk _ hilen, gd_append, gd_append]
      simp only [List.length_append, htk, lE]
      by_cases hi0 : i = 0
      · subst hi0
        rw [if_pos (by omega), if_pos (by omega), gd_take (by omega),
          if_neg (by omega)]
      · by_cases hint : i + 1 < phi.length
        · have hlt : i - 1 < phi.length - 2 := by omega
          rw [if_pos (by omega), if_neg (by omega),
            gd_map _ (by rw [List.length_zipWith, lD, lC, Nat.min_self]; exact hlt),
            gd_zipWith _ (by rw [lD]; exact hlt) (by rw [lC]; exact hlt),
            gd_zipWith _ (by rw [lA]; exact hlt) (by rw [lB]; exact hlt),
            gd_take (by omega), gd_drop,
            gd_map _ (by simp only [List.length_take, List.length_drop]; omega),
            gd_take (by omega), gd_drop]
          have e1 : 2 + (i - 1) = i + 1 := by omega
          have e2 : 1 + (i - 1) = i := by omega
          rw [e1, e2, if_pos ⟨by omega, hint⟩, trial]
        · rw [if_neg (by omega), gd_drop]
          have e3 : 1 + (phistar.length - 2) + (i - (1 + (phi.length - 2))) = i := by
            omega
          rw [e3, if_neg (by omega)]
  simp only [hout]
  simp only [bop_ok_of_length (show (phi.map (fun x => (1 - w) * x)).length =
    ((starNext phi phistar F h).map (fun x => w * x)).length by
      simp only [List.length_map, starNext_length]), ok_bind]
  have hblend : List.zipWith (· + ·) (phi.map (fun x => (1 - w) * x))
      ((starNext phi phistar F h).map (fun x => w * x)) =
      mk phi.length
        (fun j => (1 - w) * gd phi j + w * gd (starNext phi phistar F h) j) := by
    apply ext_gd
    · simp only [List.length_zipWith, List.length_map, starNext_length,
        Nat.min_self, mk_length]
    · intro i hi
      have hip : i < phi.length := by
        simpa only [List.length_zipWith, List.length_map, starNext_length,
          Nat.min_self] using hi
      rw [gd_zipWith _ (by simpa only [List.length_map] using hip)
          (by rw [List.length_map, starNext_length]; exact hip),
        gd_map _ hip, gd_map _ (by rw [starNext_length]; exact hip),
        gd_mk _ hip]
  rw [hblend]

theorem bind_eq_ok {α β : Type} {x : Except NpErr α} {f : α → Except NpErr β}
    {b : β} : x >>= f = .ok b ↔ ∃ a, x = .ok a ∧ f a = .ok b := by
  cases x with
  | ok a => simp [ok_bind]
  | error e => simp [error_bind]

theorem map_eq_ok {α β : Type} {g : α → β} {x : Except NpErr α} {b : β} :
    x.map g = .ok b ↔ ∃ a, x = .ok a ∧ g a = b := by
  cases x with
  | ok a => simp [Except.map]
  | error e => simp [Except.map]

/-! ### The Smoother sweep as the specification words it -/

/-- One sweep of the Smoother as the specification describes it: at every
interior point the trial value `phi*_j = 0.5*(phi_{j-1} + phi_{j+1} +
h^2*F_j)` is blended as `(1-w)*phi_j + w*phi*_j`; boundary points are left
unchanged. -/
def jacobiSweepSpec (F : Field) (h w : ℚ) (phi : Field) : Field :=
  mk phi.length (fun j =>
    if 0 < j ∧ j + 1 < phi.length then
      (1 - w) * gd phi j +
        w * ((1 / 2) * (gd phi (j - 1) + gd phi (j + 1) + h ^ 2 * gd F j))
    else gd phi j)

theorem jacobiSweepSpec_length (F : Field) (h w : ℚ) (phi : Field) :
    (jacobiSweepSpec F h w phi).length = phi.length := by
  simp [jacobiSweepSpec, mk_length]

theorem gd_jacobiSweepSpec_zero (F : Field) (h w : ℚ) (phi : Field) :
    gd (jacobiSweepSpec F h w phi) 0 = gd phi 0 := by
  rcases Nat.eq_zero_or_pos phi.length with hp | hp
  · rw [List.length_eq_zero.mp hp]
    rfl
  · rw [jacobiSweepSpec, gd_mk _ hp, if_neg (by omega)]

theorem gd_jacobiSweepSpec_last (F : Field) (h w : ℚ) (phi : Field) :
    gd (jacobiSweepSpec F h w phi) (phi.length - 1) = gd phi (phi.length - 1) := by
  rcases Nat.eq_zero_or_pos phi.length with hp | hp
  · rw [List.length_eq_zero.mp hp]
    rfl
  · rw [jacobiSweepSpec, gd_mk _ (by omega), if_neg (by omega)]

theorem jacobiSweepSpec_iterate_length (F : Field) (h w : ℚ) (k : Nat)
    (phi : Field) : ((jacobiSweepSpec F h w)^[k] phi).length = phi.length := by
  induction k generalizing phi with
  | zero => rfl
  | succ k ih =>
      rw [Function.iterate_succ_apply, ih, jacobiSweepSpec_length]

theorem gd_starNext_zero {phi phistar : Field} (F : Field) (h : ℚ)
    (hs : phistar.length = phi.length) :
    gd (starNext phi phistar F h) 0 = gd phistar 0 := by
  rcases Nat.eq_zero_or_pos phi.length with hp | hp
  · rw [List.length_eq_zero.mp (hs.trans hp), starNext, hp]
    rfl
  · rw [starNext, gd_mk _ hp, if_neg (by omega)]

theorem gd_starNext_last {phi phistar : Field} (F : Field) (h : ℚ)
    (hs : phistar.length = phi.length) :
    gd (starNext phi phistar F h) (phi.length - 1) =
      gd phistar (phi.length - 1) := by
  rcases Nat.eq_zero_or_pos phi.length with hp | hp
  · rw [List.length_eq_zero.mp (hs.trans hp), starNext, hp]
    rfl
  · rw [starNext, gd_mk _ (by omega), if_neg (by omega)]

/-- Under the loop invariant (the two ends of `phistar` agree with those of
`phi`), the blended array of one loop body is exactly the sweep the
specification describes. -/
theorem blend_eq_sweep {phi phistar F : Field} {h w : ℚ}
    (hs0 : gd phistar 0 = gd phi 0)
    (hsl : gd phistar (phi.length - 1) = gd phi (phi.length - 1)) :
    mk phi.length
      (fun j => (1 - w) * gd phi j + w * gd (starNext phi phistar F h) j) =
    jacobiSweepSpec F h w phi := by
  apply ext_gd
  · simp [mk_length, jacobiSweepSpec]
  · intro i hi
    rw [mk_length] at hi
    rw [gd_mk _ hi, jacobiSweepSpec, gd_mk _ hi, starNext, gd_mk _ hi]
    by_cases hint : 0 < i ∧ i + 1 < phi.length
    · rw [if_pos hint, if_pos hint, trial]
    · rw [if_neg hint, if_neg hint]
      rcases Nat.eq_zero_or_pos i with hi0 | hi0
      · subst hi0
        rw [hs0]
        ring
      · have : i = phi.length - 1 := by omega
        subst this
        rw [hsl]
        ring

theorem jacobiStep_ok_spec {phi phistar F : Field} {h w : ℚ}
    (hF : F.length = phi.length) (hs : phistar.length = phi.length)
    (hs0 : gd phistar 0 = gd phi 0)
    (hsl : gd phistar (phi.length - 1) = gd phi (phi.length - 1)) :
    jacobiStep F h w (phi, phistar) =
      .ok (jacobiSweepSpec F h w phi, starNext phi phistar F h) := by
  rw [jacobiStep_ok hF hs, blend_eq_sweep hs0 hsl]

/-- On length-matched inputs the whole iteration realizes the sweeps of the
specification, carrying some `phistar` array along. -/
theorem jacobiIter_spec (F : Field) (h w : ℚ) (k : Nat) :
    ∀ phi phistar : Field, F.length = phi.length →
      phistar.length = phi.length → gd phistar 0 = gd phi 0 →
      gd phistar (phi.length - 1) = gd phi (phi.length - 1) →
      ∃ ps, jacobiIter F h w k (phi, phistar) =
        .ok ((jacobiSweepSpec F h w)^[k] phi, ps) := by
  induction k with
  | zero => exact fun phi phistar _ _ _ _ => ⟨phistar, rfl⟩
  | succ k ih =>
      intro phi phistar hF hs hs0 hsl
      rw [jacobiIter, jacobiStep_ok_spec hF hs hs0 hsl, ok_bind]
      have hls : (jacobiSweepSpec F h w phi).length = phi.length :=
        jacobiSweepSpec_length F h w phi
      obtain ⟨ps, hps⟩ := ih (jacobiSweepSpec F h w phi) (starNext phi phistar F h)
        (by rw [hls]; exact hF)
        (by rw [starNext_length, hls])
        (by rw [gd_starNext_zero F h hs, gd_jacobiSweepSpec_zero, hs0])
        (by rw [hls, gd_starNext_last F h hs, gd_jacobiSweepSpec_last, hsl])
      refine ⟨ps, ?_⟩
      rw [hps, Function.iterate_succ_apply]

/-- `jacobi` on length-matched inputs: it never fails and returns exactly
`k` specification sweeps applied to `phi`. -/
theorem jacobi_spec_eq (phi F : Field) (h : ℚ) (k : Nat) (w : ℚ)
    (hF : phi.length = F.length) :
    jacobi phi F h k w = .ok ((jacobiSweepSpec F h w)^[k] phi) := by
  obtain ⟨ps, hps⟩ := jacobiIter_spec F h w k phi phi hF.symm rfl rfl rfl
  rw [jacobi, hps]
  rfl

/-! ### Shape preservation without any length hypotheses: whenever the
fallible operations return a value at all, the array length and the two end
entries survive unchanged. -/

theorem sandwich_shape {dst mid out : Field} (hm : mid.length = dst.length - 2)
    (ho : out = dst.take 1 ++ mid ++ dst.drop (1 + (dst.length - 2))) :
    out.length = dst.length ∧ gd out 0 = gd dst 0 ∧
      gd out (dst.length - 1) = gd dst (dst.length - 1) := by
  subst ho
  have htk : (dst.take 1).length = min 1 dst.length := List.length_take 1 dst
  refine ⟨?_, ?_, ?_⟩
  · simp only [List.length_append, List.length_take, List.length_drop, hm]
    omega
  · rcases Nat.eq_zero_or_pos dst.length with hd | hd
    · rw [List.length_eq_zero.mp hd] at hm ⊢
      rw [List.length_eq_zero.mp hm]
      rfl
    · rw [gd_append, gd_append]
      simp only [List.length_append, htk, hm]
      rw [if_pos (by omega), if_pos (by omega), gd_take (by omega)]
  · rcases Nat.eq_zero_or_pos dst.length with hd | hd
    · rw [List.length_eq_zero.mp hd] at hm ⊢
      rw [List.length_eq_zero.mp hm]
      rfl
    · rw [gd_append, gd_append]
      simp only [List.length_append, htk, hm]
      rcases Nat.lt_or_ge dst.length 2 with hd2 | hd2
      · have h1 : dst.length = 1 := by omega
        rw [h1]
        rw [if_pos (by omega), if_pos (by omega), gd_take (by omega)]
      · rw [if_neg (by omega), gd_drop]
        have e : 1 + (dst.length - 2) + (dst.length - 1 -
            (min 1 dst.length + (dst.length - 2))) = dst.length - 1 := by
          omega
        rw [e]

theorem assignInner_ok_shape {dst rhs out : Field}
    (ho : assignInner dst rhs = .ok out) :
    out.length = dst.length ∧ gd out 0 = gd dst 0 ∧
      gd out (dst.length - 1) = gd dst (dst.length - 1) := by
  unfold assignInner at ho
  split_ifs at ho with h1 h2
  · exact sandwich_shape h1 (Except.ok.inj ho).symm
  · exact sandwich_shape (by simp [List.length_replicate])
      (Except.ok.inj ho).symm

theorem jacobiStep_shape {F : Field} {h w : ℚ} {phi phistar phi1 ps : Field}
    (hs : phistar.length = phi.length)
    (hs0 : gd phistar 0 = gd phi 0)
    (hsl : gd phistar (phi.length - 1) = gd phi (phi.length - 1))
    (ho : jacobiStep F h w (phi, phistar) = .ok (phi1, ps)) :
    (phi1.length = phi.length ∧ gd phi1 0 = gd phi 0 ∧
      gd phi1 (phi.length - 1) = gd phi (phi.length - 1)) ∧
    (ps.length = phi.length ∧ gd ps 0 = gd phi 0 ∧
      gd ps (phi.length - 1) = gd phi (phi.length - 1)) := by
  simp only [jacobiStep] at ho
  obtain ⟨r1, hb1, ho⟩ := bind_eq_ok.mp ho
  obtain ⟨r2, hb2, ho⟩ := bind_eq_ok.mp ho
  obtain ⟨ps', hb3, ho⟩ := bind_eq_ok.mp ho
  obtain ⟨phi1', hb4, ho⟩ := bind_eq_ok.mp ho
  obtain ⟨hinj1, hinj2⟩ := Prod.mk.inj (Except.ok.inj ho)
  rw [← hinj1, ← hinj2]
  obtain ⟨hl3, he30, he3l⟩ := assignInner_ok_shape hb3
  rw [hs] at hl3
  rw [bop_ok_of_length (by simp only [List.length_map, hl3])] at hb4
  have hphi1 : phi1' = List.zipWith (· + ·) (phi.map (fun x => (1 - w) * x))
      (ps'.map (fun x => w * x)) := (Except.ok.inj hb4).symm
  have hlen1 : phi1'.length = phi.length := by
    rw [hphi1]
    simp only [List.length_zipWith, List.length_map, hl3, Nat.min_self]
  have hshape : ps'.length = phi.length ∧ gd ps' 0 = gd phi 0 ∧
      gd ps' (phi.length - 1) = gd phi (phi.length - 1) := by
    refine ⟨hl3, ?_, ?_⟩
    · rw [he30, hs0]
    · rw [← hs, he3l, hs]
      exact hsl
  refine ⟨⟨hlen1, ?_, ?_⟩, hshape⟩
  · rcases Nat.eq_zero_or_pos phi.length with hp | hp
    · rw [List.length_eq_zero.mp hp] at hphi1 ⊢
      rw [hphi1]
      rfl
    · rw [hphi1, gd_zipWith _ (by simp only [List.length_map]; exact hp)
        (by simp only [List.length_map, hl3]; exact hp),
        gd_map _ hp, gd_map _ (by rw [hl3]; exact hp), hshape.2.1]
      ring
  · rcases Nat.eq_zero_or_pos phi.length with hp | hp
    · rw [List.length_eq_zero.mp hp] at hphi1 ⊢
      rw [hphi1]
      rfl
    · rw [hphi1, gd_zipWith _ (by simp only [List.length_map]; omega)
        (by simp only [List.length_map, hl3]; omega),
        gd_map _ (by omega), gd_map _ (by rw [hl3]; omega), hshape.2.2]
      ring

theorem jacobiIter_shape (F : Field) (h w : ℚ) (k : Nat) :
    ∀ phi phistar phi1 ps : Field, phistar.length = phi.length →
      gd phistar 0 = gd phi 0 →
      gd phistar (phi.length - 1) = gd phi (phi.length - 1) →
      jacobiIter F h w k (phi, phistar) = .ok (phi1, ps) →
      phi1.length = phi.length ∧ gd phi1 0 = gd phi 0 ∧
        gd phi1 (phi.length - 1) = gd phi (phi.length - 1) := by
  induction k with
  | zero =>
      intro phi phistar phi1 ps _ _ _ ho
      obtain ⟨h1, h2⟩ := Prod.mk.inj (Except.ok.inj ho)
      subst h1
      exact ⟨rfl, rfl, rfl⟩
  | succ k ih =>
      intro phi phistar phi1 ps hs hs0 hsl ho
      rw [jacobiIter] at ho
      obtain ⟨s', hstep, hiter⟩ := bind_eq_ok.mp ho
      obtain ⟨a, b⟩ := s'
      obtain ⟨⟨ha1, ha2, ha3⟩, hb1, hb2, hb3⟩ :=
        jacobiStep_shape hs hs0 hsl hstep
      have := ih a b phi1 ps (hb1.trans ha1.symm)
        (hb2.trans ha2.symm) (by rw [ha1, hb3, ← ha3]) hiter
      refine ⟨this.1.trans ha1, this.2.1.trans ha2, ?_⟩
      rw [ha1] at this
      rw [this.2.2, ha3]

/-- Whenever `jacobi` returns a field at all, the length and the two end
entries of `phi` survive unchanged (no shape hypotheses needed). -/
theorem jacobi_shape {phi F : Field} {h w : ℚ} {k : Nat} {psi : Field}
    (ho : jacobi phi F h k w = .ok psi) :
    psi.length = phi.length ∧ gd psi 0 = gd phi 0 ∧
      gd psi (phi.length - 1) = gd phi (phi.length - 1) := by
  rw [jacobi] at ho
  obtain ⟨s, hab, hfst⟩ := map_eq_ok.mp ho
  obtain ⟨a, b⟩ := s
  have ha : a = psi := hfst
  subst ha
  exact jacobiIter_shape F h w k phi phi a b rfl rfl rfl hab

/-! ### Grid transfer operators: lengths and end entries -/

theorem prolong_length (v : Field) : (prolong v).length = 2 * v.length - 1 := by
  simp [prolong, mk_length]

theorem restrict_length (v : Field) : (restrict v).length = (v.length + 1) / 2 := by
  simp [restrict, mk_length]

theorem gd_prolong_zero (v : Field) : gd (prolong v) 0 = gd v 0 := by
  rcases Nat.eq_zero_or_pos v.length with hv | hv
  · rw [List.length_eq_zero.mp hv]
    rfl
  · rw [prolong, gd_mk _ (by omega), if_pos (by omega)]

theorem gd_prolong_last (v : Field) :
    gd (prolong v) ((prolong v).length - 1) = gd v (v.length - 1) := by
  rcases Nat.eq_zero_or_pos v.length with hv | hv
  · rw [List.length_eq_zero.mp hv]
    rfl
  · obtain ⟨m, hm⟩ : ∃ m, v.length = m + 1 := ⟨v.length - 1, by omega⟩
    rw [prolong_length, hm]
    have hidx : 2 * (m + 1) - 1 - 1 = 2 * m := by omega
    rw [hidx, prolong, gd_mk _ (by omega), if_pos (by omega)]
    have h2 : 2 * m / 2 = m := by omega
    have h3 : m + 1 - 1 = m := by omega
    rw [h2, h3]

theorem gd_set_eq {v : Field} {i : Nat} {x : ℚ} (h : i < v.length) :
    gd (v.set i x) i = x := by
  simp [gd, List.getD_eq_getElem?_getD, List.getElem?_set_self h]

theorem gd_set_ne {v : Field} {i j : Nat} {x : ℚ} (h : i ≠ j) :
    gd (v.set i x) j = gd v j := by
  simp [gd, List.getD_eq_getElem?_getD, List.getElem?_set_ne h]

theorem setBndry_length (v : Field) (b : ℚ × ℚ) :
    (setBndry v b).length = v.length := by
  simp [setBndry, List.length_set]

theorem gd_setBndry_zero {v : Field} (b : ℚ × ℚ) (h2 : 2 ≤ v.length) :
    gd (setBndry v b) 0 = b.1 := by
  rw [setBndry, gd_set_ne (by omega), gd_set_eq (by omega)]

theorem gd_setBndry_last {v : Field} (b : ℚ × ℚ) (h1 : 1 ≤ v.length) :
    gd (setBndry v b) (v.length - 1) = b.2 := by
  rw [setBndry, gd_set_eq (by simp only [List.length_set]; omega)]

/-! ### V-cycle and FMG: whenever they return a field, its length matches
and the two end entries are preserved (resp. set to the boundary pair) -/

/-- Elementwise `a + b` via numpy broadcasting, when `b` carries zeros at
its ends and `a` has at least 2 entries, preserves the length and ends of
`a`. -/
theorem bop_add_ends {a b c : Field} (hc : bop (· + ·) a b = .ok c)
    (h2 : 2 ≤ a.length) (hb0 : gd b 0 = 0) (hbl : gd b (b.length - 1) = 0) :
    c.length = a.length ∧ gd c 0 = gd a 0 ∧
      gd c (a.length - 1) = gd a (a.length - 1) := by
  unfold bop at hc
  split_ifs at hc with hab ha1 hb1
  · have hcz : c = List.zipWith (· + ·) a b := (Except.ok.inj hc).symm
    refine ⟨?_, ?_, ?_⟩
    · rw [hcz]
      simp only [List.length_zipWith, ← hab, Nat.min_self]
    · rw [hcz, gd_zipWith _ (by omega) (by omega), hb0]
      ring
    · rw [hcz, gd_zipWith _ (by omega) (by omega), hab, hbl]
      ring
  · omega
  · have hcz : c = a.map (fun x => x + gd b 0) := (Except.ok.inj hc).symm
    refine ⟨?_, ?_, ?_⟩
    · rw [hcz, List.length_map]
    · rw [hcz, gd_map _ (by omega), hb0]
      ring
    · rw [hcz, gd_map _ (by omega), hb0]
      ring

theorem vcycleAux_shape (fuel : Nat) :
    ∀ (phi F : Field) (h : ℚ) (Niter : Nat) (psi : Field),
      vcycleAux fuel phi F h Niter = .ok psi →
      psi.length = phi.length ∧ gd psi 0 = gd phi 0 ∧
        gd psi (phi.length - 1) = gd phi (phi.length - 1) := by
  induction fuel with
  | zero =>
      intro phi F h Niter psi ho
      rw [vcycleAux] at ho
      obtain ⟨phi1, h1, h2⟩ := bind_eq_ok.mp ho
      obtain ⟨l1, e1, e2⟩ := jacobi_shape h1
      obtain ⟨l2, e3, e4⟩ := jacobi_shape h2
      rw [l1] at l2 e4
      exact ⟨l2, e3.trans e1, e4.trans e2⟩
  | succ fuel ih =>
      intro phi F h Niter psi ho
      rw [vcycleAux] at ho
      obtain ⟨phi1, h1, ho⟩ := bind_eq_ok.mp ho
      obtain ⟨l1, e1, e2⟩ := jacobi_shape h1
      by_cases hc : 3 < phi1.length
      · rw [if_pos hc] at ho
        obtain ⟨r, hr, ho⟩ := bind_eq_ok.mp ho
        obtain ⟨v2, hv2, ho⟩ := bind_eq_ok.mp ho
        obtain ⟨phi2, hp2, ho⟩ := bind_eq_ok.mp ho
        obtain ⟨lv, ev0, evl⟩ := ih _ _ _ _ _ hv2
        rw [zeros_length] at lv evl
        rw [gd_zeros] at ev0
        rw [gd_zeros] at evl
        have hpb0 : gd (prolong v2) 0 = 0 := by
          rw [gd_prolong_zero, ev0]
        have hpbl : gd (prolong v2) ((prolong v2).length - 1) = 0 := by
          rw [gd_prolong_last, lv]
          exact evl
        obtain ⟨l2, e3, e4⟩ := bop_add_ends hp2 (by omega) hpb0 hpbl
        obtain ⟨l3, e5, e6⟩ := jacobi_shape ho
        rw [l2] at l3 e6
        rw [l1] at l3 e4 e6
        exact ⟨l3, (e5.trans e3).trans e1, (e6.trans e4).trans e2⟩
      · rw [if_neg hc] at ho
        obtain ⟨l2, e3, e4⟩ := jacobi_shape ho
        rw [l1] at l2 e4
        exact ⟨l2, e3.trans e1, e4.trans e2⟩

theorem vcycle_shape {phi F : Field} {h : ℚ} {Niter : Nat} {psi : Field}
    (ho : vcycle phi F h Niter = .ok psi) :
    psi.length = phi.length ∧ gd psi 0 = gd phi 0 ∧
      gd psi (phi.length - 1) = gd phi (phi.length - 1) :=
  vcycleAux_shape phi.length phi F h Niter psi ho

theorem fmgLoop_shape (F : Field) (h : ℚ) (k : Nat) :
    ∀ v psi : Field, fmgLoop F h k v = .ok psi →
      psi.length = v.length ∧ gd psi 0 = gd v 0 ∧
        gd psi (v.length - 1) = gd v (v.length - 1) := by
  induction k with
  | zero =>
      intro v psi ho
      have : v = psi := Except.ok.inj ho
      subst this
      exact ⟨rfl, rfl, rfl⟩
  | succ k ih =>
      intro v psi ho
      rw [fmgLoop] at ho
      obtain ⟨v', h1, h2⟩ := bind_eq_ok.mp ho
      obtain ⟨l1, e1, e2⟩ := vcycle_shape h1
      obtain ⟨l2, e3, e4⟩ := ih v' psi h2
      rw [l1] at l2 e4
      exact ⟨l2, e3.trans e1, e4.trans e2⟩

theorem fmgAux_shape (fuel : Nat) :
    ∀ (F : Field) (h : ℚ) (b : ℚ × ℚ) (Niter : Nat) (psi : Field),
      2 ≤ F.length → fmgAux fuel F h b Niter = .ok psi →
      gd psi 0 = b.1 ∧ gd psi (psi.length - 1) = b.2 := by
  have terminal : ∀ (F : Field) (h : ℚ) (b : ℚ × ℚ) (Niter : Nat) (psi : Field),
      2 ≤ F.length → fmgLoop F h Niter (setBndry (zeros F.length) b) = .ok psi →
      gd psi 0 = b.1 ∧ gd psi (psi.length - 1) = b.2 := by
    intro F h b Niter psi h2 ho
    obtain ⟨l1, e1, e2⟩ := fmgLoop_shape F h Niter _ psi ho
    have hz : (zeros F.length).length = F.length := zeros_length _
    rw [setBndry_length, hz] at l1 e2
    constructor
    · rw [e1, gd_setBndry_zero b (by rw [hz]; exact h2)]
    · rw [l1, e2]
      have := @gd_setBndry_last (zeros F.length) b (by rw [hz]; omega)
      rw [hz] at this
      exact this
  induction fuel with
  | zero =>
      intro F h b Niter psi h2 ho
      rw [fmgAux] at ho
      exact terminal F h b Niter psi h2 ho
  | succ fuel ih =>
      intro F h b Niter psi h2 ho
      rw [fmgAux] at ho
      by_cases hc : 3 < F.length
      · rw [if_pos hc] at ho
        obtain ⟨v2h, hrec, ho⟩ := bind_eq_ok.mp ho
        have h2' : 2 ≤ (restrict F).length := by
          rw [restrict_length]
          omega
        obtain ⟨ev0, evl⟩ := ih (restrict F) (2 * h) b 5 v2h h2' hrec
        obtain ⟨l1, e1, e2⟩ := fmgLoop_shape F h Niter _ psi ho
        constructor
        · rw [e1, gd_prolong_zero, ev0]
        · rw [l1, e2, gd_prolong_last, evl]
      · rw [if_neg hc] at ho
        exact terminal F h b Niter psi h2 ho

theorem fmg_shape {F : Field} {h : ℚ} {b : ℚ × ℚ} {Niter : Nat} {psi : Field}
    (h2 : 2 ≤ F.length) (ho : fmg_vcycle F h b Niter = .ok psi) :
    gd psi 0 = b.1 ∧ gd psi (psi.length - 1) = b.2 :=
  fmgAux_shape F.length F h b Niter psi h2 ho

/-! ### The Residual Calculator in closed form -/

/-- On length-matched inputs `residual` never fails and returns the array
whose interior entries carry `h²F - d2phi` and whose end entries carry
`h²F` (because `d2phi` is zero there). -/
theorem residual_ok {phi F : Field} {h : ℚ} (hF : F.length = phi.length) :
    residual phi F h = .ok (mk phi.length (fun j =>
      h ^ 2 * gd F j - (if 0 < j ∧ j + 1 < phi.length then
        -gd phi (j - 1) - gd phi (j + 1) + 2 * gd phi j else 0))) := by
  simp only [residual]
  rw [bop_ok_of_length (by simp only [List.length_map, mk_length, hF])]
  congr 1
  apply ext_gd
  · simp only [List.length_zipWith, List.length_map, mk_length, hF,
      Nat.min_self]
  · intro i hi
    have hip : i < phi.length := by
      simpa only [List.length_zipWith, List.length_map, mk_length, hF,
        Nat.min_self] using hi
    rw [gd_zipWith _ (by simp only [List.length_map, hF]; exact hip)
        (by rw [mk_length]; exact hip),
      gd_map _ (by rw [hF]; exact hip), gd_mk _ hip, gd_mk _ hip]

/-- C1 (counterexample): with `phi = [0,0,0]`, `F = [1,1,1]`, `h = 1` the
Residual Calculator returns `[1,1,1]`; its boundary entries are `h²·F`
there, not zero, refuting the claim that boundary entries are zero
regardless of the values of `F` at the boundaries. -/
theorem residual_boundary_counterexample :
    residual [0, 0, 0] [1, 1, 1] 1 = .ok [1, 1, 1] ∧
      gd ([1, 1, 1] : Field) 0 ≠ 0 := by
  constructor
  · rw [residual_ok (by rfl)]
    norm_num [mk, List.range_succ, gd]
  · norm_num [gd]

/-- C1 (amended): for every length-matched `phi`, `F` (length `n+2`) and
spacing `h`, the Residual Calculator succeeds and returns a Field of the
same length whose interior entry `j` equals
`h²·F_j - (-phi_{j-1} + 2·phi_j - phi_{j+1})`, and whose two boundary
entries (index 0 and index n+1) equal `h²·F` at those indices (zero only
when `F` vanishes there). -/
theorem residual_entries {phi F : Field} {h : ℚ} {n : Nat}
    (hF : F.length = phi.length) (hn : phi.length = n + 2) :
    ∃ r, residual phi F h = .ok r ∧ r.length = n + 2 ∧
      gd r 0 = h ^ 2 * gd F 0 ∧ gd r (n + 1) = h ^ 2 * gd F (n + 1) ∧
      ∀ j, 0 < j → j < n + 1 →
        gd r j = h ^ 2 * gd F j -
          (-gd phi (j - 1) + 2 * gd phi j - gd phi (j + 1)) := by
  refine ⟨_, residual_ok hF, ?_, ?_, ?_, ?_⟩
  · rw [mk_length, hn]
  · rw [gd_mk _ (by omega), if_neg (by omega)]
    ring
  · rw [gd_mk _ (by omega), if_neg (by omega)]
    ring
  · intro j hj0 hjn
    rw [gd_mk _ (by omega), if_pos (by omega)]
    ring

/-- C1 (witness): the amended theorem applied at `phi = [0,0,0]`,
`F = [4,5,6]`, `h = 1`. -/
theorem residual_entries_witness :
    (([4, 5, 6] : Field).length = ([0, 0, 0] : Field).length) ∧
    (∃ r, residual [0, 0, 0] [4, 5, 6] 1 = .ok r ∧ r.length = 1 + 2 ∧
      gd r 0 = 1 ^ 2 * gd [4, 5, 6] 0 ∧ gd r 2 = 1 ^ 2 * gd [4, 5, 6] 2 ∧
      ∀ j, 0 < j → j < 2 →
        gd r j = 1 ^ 2 * gd [4, 5, 6] j -
          (-gd [0, 0, 0] (j - 1) + 2 * gd [0, 0, 0] j - gd [0, 0, 0] (j + 1))) :=
  ⟨rfl, residual_entries rfl rfl⟩

/-- C4: on length-matched inputs the Smoother is exactly `k` repetitions of
the specification sweep (`phi*_j = 0.5*(phi_{j-1} + phi_{j+1} + h²·F_j)` at
every interior point, blended as `(1-w)·phi_j + w·phi*_j`, boundary points
unchanged), a pure function of its inputs returning a field of the same
length as `phi`. -/
theorem jacobi_matches_spec (phi F : Field) (h : ℚ) (k : Nat) (w : ℚ)
    (hlen : phi.length = F.length) :
    jacobi phi F h k w = .ok ((jacobiSweepSpec F h w)^[k] phi) ∧
      ((jacobiSweepSpec F h w)^[k] phi).length = phi.length :=
  ⟨jacobi_spec_eq phi F h k w hlen, jacobiSweepSpec_iterate_length F h w k phi⟩

/-- C4 (witness): the theorem applied at `phi = [1,4,0]`, `F = [0,2,0]`,
`h = 1`, one sweep with the default weight `2/3`; the sweep evaluates to
`[1, 7/3, 0]`. -/
theorem jacobi_matches_spec_witness :
    (([1, 4, 0] : Field).length = ([0, 2, 0] : Field).length) ∧
    (jacobi [1, 4, 0] [0, 2, 0] 1 1 (2 / 3) =
        .ok ((jacobiSweepSpec [0, 2, 0] 1 (2 / 3))^[1] [1, 4, 0]) ∧
      ((jacobiSweepSpec [0, 2, 0] 1 (2 / 3))^[1] [1, 4, 0]).length =
        ([1, 4, 0] : Field).length) ∧
    (jacobiSweepSpec [0, 2, 0] 1 (2 / 3))^[1] [1, 4, 0] = [1, 7 / 3, 0] := by
  refine ⟨rfl, jacobi_matches_spec [1, 4, 0] [0, 2, 0] 1 1 (2 / 3) rfl, ?_⟩
  norm_num [jacobiSweepSpec, mk, List.range_succ, gd]

/-- C2: boundary invariance.  Whenever the Smoother (`jacobi`, any number
of sweeps) or the V-Cycle returns a field, the entries at index 0 and at
index n (the last index) are exactly the entries the input field held
there; whenever the FMG Controller returns a field, its two ends are
exactly the boundary pair.  (Exact equality in ℚ, not approximate.) -/
theorem boundary_invariance :
    (∀ (phi F : Field) (h : ℚ) (k : Nat) (w : ℚ) (psi : Field),
      jacobi phi F h k w = .ok psi →
      psi.length = phi.length ∧ gd psi 0 = gd phi 0 ∧
        gd psi (phi.length - 1) = gd phi (phi.length - 1)) ∧
    (∀ (phi F : Field) (h : ℚ) (k : Nat) (psi : Field),
      vcycle phi F h k = .ok psi →
      psi.length = phi.length ∧ gd psi 0 = gd phi 0 ∧
        gd psi (phi.length - 1) = gd phi (phi.length - 1)) ∧
    (∀ (F : Field) (h : ℚ) (b : ℚ × ℚ) (k : Nat) (psi : Field),
      2 ≤ F.length → fmg_vcycle F h b k = .ok psi →
      gd psi 0 = b.1 ∧ gd psi (psi.length - 1) = b.2) :=
  ⟨fun _ _ _ _ _ _ ho => jacobi_shape ho,
   fun _ _ _ _ _ ho => vcycle_shape ho,
   fun _ _ _ _ _ h2 ho => fmg_shape h2 ho⟩

/-- C2 (witness): the FMG part applied at `F = [0,0,0]`, `h = 1`,
boundary pair `(4,7)`, zero ascent iterations: the returned field is
`[4,0,7]` and its ends are the boundary pair. -/
theorem boundary_invariance_witness :
    (2 ≤ ([0, 0, 0] : Field).length) ∧
    (fmg_vcycle [0, 0, 0] 1 (4, 7) 0 = .ok [4, 0, 7]) ∧
    (gd ([4, 0, 7] : Field) 0 = 4 ∧
      gd ([4, 0, 7] : Field) (([4, 0, 7] : Field).length - 1) = 7) := by
  have hev : fmg_vcycle [0, 0, 0] 1 (4, 7) 0 = .ok [4, 0, 7] := by
    norm_num [fmg_vcycle, fmgAux, fmgLoop, setBndry, zeros, List.replicate]
  exact ⟨by norm_num, hev,
    boundary_invariance.2.2 [0, 0, 0] 1 (4, 7) 0 [4, 0, 7] (by norm_num) hev⟩

/-! ### Restriction and prolongation on constant and affine data -/

theorem restrict_replicate (m : Nat) (c : ℚ) :
    restrict (List.replicate (2 * m + 1) c) = List.replicate (m + 1) c := by
  have hL : (List.replicate (2 * m + 1) (c : ℚ)).length = 2 * m + 1 :=
    List.length_replicate _ _
  apply ext_gd
  · simp only [restrict_length, List.length_replicate]
    omega
  · intro i hi
    have him : i < m + 1 := by
      rw [restrict_length, List.length_replicate] at hi
      omega
    have hr : gd (List.replicate (m + 1) c) i = c := by
      rw [gd_replicate, if_pos him]
    rw [hr, restrict, gd_mk _ (by rw [hL]; omega)]
    simp only [hL]
    by_cases h1 : i = (2 * m + 1 + 1) / 2 - 1
    · rw [if_pos h1, gd_replicate, if_pos (by omega)]
    · rw [if_neg h1]
      by_cases h0 : i = 0
      · rw [if_pos h0, gd_replicate, if_pos (by omega)]
      · rw [if_neg h0, gd_replicate, if_pos (Nat.mod_lt _ (by omega)),
          gd_replicate, if_pos (by omega), gd_replicate,
          if_pos (Nat.mod_lt _ (by omega))]
        ring

theorem prolong_replicate (m : Nat) (c : ℚ) :
    prolong (List.replicate (m + 1) c) = List.replicate (2 * m + 1) c := by
  have hL : (List.replicate (m + 1) (c : ℚ)).length = m + 1 :=
    List.length_replicate _ _
  apply ext_gd
  · simp only [prolong_length, List.length_replicate]
    omega
  · intro i hi
    have him : i < 2 * m + 1 := by
      rw [prolong_length, List.length_replicate] at hi
      omega
    have hr : gd (List.replicate (2 * m + 1) c) i = c := by
      rw [gd_replicate, if_pos him]
    rw [hr, prolong, gd_mk _ (by rw [hL]; omega)]
    by_cases he : i % 2 = 0
    · rw [if_pos he, gd_replicate, if_pos (by omega)]
    · rw [if_neg he, gd_replicate, if_pos (by omega),
        gd_replicate, if_pos (by omega)]
      ring

/-- C8: applying Restriction followed by Prolongation to a spatially
constant Field of odd length `2m+1` (with `m ≥ 1`) returns the very same
constant Field, exactly. -/
theorem prolong_restrict_const (c : ℚ) (m : Nat) (hm : 1 ≤ m) :
    prolong (restrict (List.replicate (2 * m + 1) c)) =
      List.replicate (2 * m + 1) c := by
  rw [restrict_replicate, prolong_replicate]

/-- C8 (witness): the theorem applied at `c = 7`, `m = 1`
(`[7,7,7] → restrict → prolong → [7,7,7]`). -/
theorem prolong_restrict_const_witness :
    (1 ≤ 1) ∧
    prolong (restrict (List.replicate (2 * 1 + 1) (7 : ℚ))) =
      List.replicate (2 * 1 + 1) (7 : ℚ) :=
  ⟨le_refl 1, prolong_restrict_const 7 1 (le_refl 1)⟩

/-- C10: for a Field `v` of length `m+1` (`m ≥ 2`), Prolongation followed
by Restriction preserves the length and the two end entries, the composed
interior entry `j` equals `v_{j-1}/8 + 3·v_j/4 + v_{j+1}/8`, and on affine
data `v_j = p + q·j` the composition is exactly the identity. -/
theorem restrict_prolong_composition (v : Field) (m : Nat)
    (hlen : v.length = m + 1) (hm : 2 ≤ m) :
    (restrict (prolong v)).length = m + 1 ∧
    gd (restrict (prolong v)) 0 = gd v 0 ∧
    gd (restrict (prolong v)) m = gd v m ∧
    (∀ j, 0 < j → j < m →
      gd (restrict (prolong v)) j =
        gd v (j - 1) / 8 + 3 * gd v j / 4 + gd v (j + 1) / 8) ∧
    (∀ p q : ℚ, (∀ j, j ≤ m → gd v j = p + q * j) →
      restrict (prolong v) = v) := by
  have hu : (prolong v).length = 2 * m + 1 := by
    rw [prolong_length, hlen]
    omega
  have hlen2 : (restrict (prolong v)).length = m + 1 := by
    rw [restrict_length, hu]
    omega
  have hmend : (2 * m + 1 + 1) / 2 - 1 = m := by omega
  have hue : ∀ i, i < 2 * m + 1 → i % 2 = 0 →
      gd (prolong v) i = gd v (i / 2) := by
    intro i hi he
    rw [prolong, gd_mk _ (by rw [hlen]; omega), if_pos he]
  have huo : ∀ i, i < 2 * m + 1 → i % 2 = 1 →
      gd (prolong v) i = (1 / 2) * (gd v (i / 2) + gd v (i / 2 + 1)) := by
    intro i hi he
    rw [prolong, gd_mk _ (by rw [hlen]; omega), if_neg (by omega)]
  have hz : gd (restrict (prolong v)) 0 = gd v 0 := by
    rw [restrict, gd_mk _ (by rw [hu]; omega),
      if_neg (show ¬(0 = ((prolong v).length + 1) / 2 - 1) by rw [hu]; omega),
      if_pos rfl, hue 0 (by omega) (by omega)]
  have hl : gd (restrict (prolong v)) m = gd v m := by
    rw [restrict, gd_mk _ (by rw [hu]; omega),
      if_pos (show m = ((prolong v).length + 1) / 2 - 1 by rw [hu]; omega), hu,
      show 2 * m + 1 - 1 = 2 * m from by omega,
      hue (2 * m) (by omega) (by omega), show 2 * m / 2 = m from by omega]
  have hint : ∀ j, 0 < j → j < m →
      gd (restrict (prolong v)) j =
        gd v (j - 1) / 8 + 3 * gd v j / 4 + gd v (j + 1) / 8 := by
    intro j hj0 hjm
    rw [restrict, gd_mk _ (by rw [hu]; omega),
      if_neg (show ¬(j = ((prolong v).length + 1) / 2 - 1) by rw [hu]; omega),
      if_neg (by omega), hu,
      Nat.mod_eq_of_lt (show 2 * j + 1 < 2 * m + 1 by omega),
      Nat.mod_eq_of_lt (show 2 * j - 1 < 2 * m + 1 by omega),
      huo (2 * j + 1) (by omega) (by omega),
      hue (2 * j) (by omega) (by omega),
      huo (2 * j - 1) (by omega) (by omega),
      show (2 * j + 1) / 2 = j from by omega,
      show (2 * j - 1) / 2 + 1 = j from by omega,
      show (2 * j - 1) / 2 = j - 1 from by omega,
      show 2 * j / 2 = j from by omega]
    ring
  refine ⟨hlen2, hz, hl, hint, ?_⟩
  intro p q hv
  apply ext_gd
  · rw [hlen2, hlen]
  · intro i hi
    rw [hlen2] at hi
    by_cases hi0 : i = 0
    · subst hi0
      exact hz
    · by_cases him : i = m
      · subst him
        exact hl
      · rw [hint i (by omega) (by omega), hv (i - 1) (by omega),
          hv i (by omega), hv (i + 1) (by omega)]
        push_cast [Nat.cast_sub (show 1 ≤ i by omega)]
        ring

/-- C10 (witness): the theorem applied at the affine field
`v = [0, 1, 2, 3]` (`p = 0`, `q = 1`, `m = 3`). -/
theorem restrict_prolong_composition_witness :
    (([0, 1, 2, 3] : Field).length = 3 + 1) ∧ (2 ≤ 3) ∧
    ((restrict (prolong [0, 1, 2, 3])).length = 3 + 1 ∧
     gd (restrict (prolong [0, 1, 2, 3])) 0 = gd [0, 1, 2, 3] 0 ∧
     gd (restrict (prolong [0, 1, 2, 3])) 3 = gd [0, 1, 2, 3] 3 ∧
     (∀ j, 0 < j → j < 3 →
       gd (restrict (prolong [0, 1, 2, 3])) j =
         gd [0, 1, 2, 3] (j - 1) / 8 + 3 * gd [0, 1, 2, 3] j / 4 +
           gd [0, 1, 2, 3] (j + 1) / 8) ∧
     (∀ p q : ℚ, (∀ j, j ≤ 3 → gd [0, 1, 2, 3] j = p + q * j) →
       restrict (prolong [0, 1, 2, 3]) = [0, 1, 2, 3])) :=
  ⟨rfl, by norm_num,
    restrict_prolong_composition [0, 1, 2, 3] 3 rfl (by norm_num)⟩

/-- C9: the FMG Controller's recursive descent does not propagate its
`Niter` argument: for every `Niter`, on a grid longer than 3 points the
controller equals the recursive call on the restricted source with the
literal default `5`, followed by the `Niter`-fold V-cycle loop at this
level only.  Hence every coarser level applies exactly 5 V-cycle
corrections and the caller's `Niter` affects only the finest level. -/
theorem fmg_descent_default_niter (F : Field) (h : ℚ) (b : ℚ × ℚ)
    (Niter : Nat) (hF : 3 < F.length) :
    fmg_vcycle F h b Niter =
      fmgAux (F.length - 1) (restrict F) (2 * h) b 5 >>=
        fun v2h => fmgLoop F h Niter (prolong v2h) := by
  obtain ⟨L, hL⟩ : ∃ L, F.length = L + 1 := ⟨F.length - 1, by omega⟩
  rw [fmg_vcycle, hL]
  simp only [fmgAux, if_pos hF, Nat.add_sub_cancel]

/-- C9 (witness): the theorem applied at `F = [0,0,0,0,0]`, `h = 1`,
boundary `(1,0)`, `Niter = 2`. -/
theorem fmg_descent_default_niter_witness :
    (3 < ([0, 0, 0, 0, 0] : Field).length) ∧
    (fmg_vcycle [0, 0, 0, 0, 0] 1 (1, 0) 2 =
      fmgAux (([0, 0, 0, 0, 0] : Field).length - 1) (restrict [0, 0, 0, 0, 0])
          (2 * 1) (1, 0) 5 >>=
        fun v2h => fmgLoop [0, 0, 0, 0, 0] 1 2 (prolong v2h)) :=
  ⟨by norm_num, fmg_descent_default_niter [0, 0, 0, 0, 0] 1 (1, 0) 2 (by norm_num)⟩

/-! ### Recursion-depth stabilization: on a grid of `2^k + 1` points the
fuelled recursions stop changing once the fuel reaches `k - 1`, i.e. the
recursion terminates within `k - 1` nested levels. -/

theorem vcycleAux_small {phi F : Field} {h : ℚ} {N : Nat}
    (hsmall : phi.length ≤ 3) (fuel : Nat) :
    vcycleAux fuel phi F h N = vcycleAux 0 phi F h N := by
  cases fuel with
  | zero => rfl
  | succ fuel =>
      simp only [vcycleAux]
      cases hj : jacobi phi F h N (2 / 3) with
      | error e => rfl
      | ok phi1 =>
          simp only [ok_bind]
          rw [if_neg (by have := (jacobi_shape hj).1; omega)]

theorem fmgAux_small {F : Field} {h : ℚ} {b : ℚ × ℚ} {N : Nat}
    (hsmall : F.length ≤ 3) (fuel : Nat) :
    fmgAux fuel F h b N = fmgAux 0 F h b N := by
  cases fuel with
  | zero => rfl
  | succ fuel =>
      simp only [fmgAux]
      rw [if_neg (by omega)]

theorem vcycleAux_stable (k : Nat) :
    1 ≤ k → ∀ (phi F : Field) (h : ℚ) (N fuel : Nat),
      phi.length = 2 ^ k + 1 → F.length = 2 ^ k + 1 → k - 1 ≤ fuel →
      vcycleAux fuel phi F h N = vcycleAux (k - 1) phi F h N := by
  induction k with
  | zero => omega
  | succ k ih =>
      intro _ phi F h N fuel hp hF hfuel
      by_cases hk0 : k = 0
      · subst hk0
        rw [vcycleAux_small (by rw [hp]; norm_num) fuel]
      · have hk : 1 ≤ k := by omega
        have hpow : 4 ≤ 2 ^ (k + 1) := by
          calc 4 = 2 ^ 2 := by norm_num
          _ ≤ 2 ^ (k + 1) := Nat.pow_le_pow_right (by norm_num) (by omega)
        have h2p : 2 ^ (k + 1) = 2 * 2 ^ k := by
          rw [Nat.pow_succ, Nat.mul_comm]
        obtain ⟨f', rfl⟩ : ∃ f', fuel = f' + 1 := ⟨fuel - 1, by omega⟩
        have hkk : k + 1 - 1 = (k - 1) + 1 := by omega
        rw [hkk]
        simp only [vcycleAux]
        cases hj : jacobi phi F h N (2 / 3) with
        | error e => rfl
        | ok phi1 =>
            simp only [ok_bind]
            have hl1 : phi1.length = phi.length := (jacobi_shape hj).1
            have hcond : 3 < phi1.length := by omega
            rw [if_pos hcond, if_pos hcond]
            cases hr : residual phi1 F h with
            | error e => rfl
            | ok r =>
                simp only [ok_bind]
                have hrl : r.length = phi1.length := by
                  rw [residual_ok (by omega : F.length = phi1.length)] at hr
                  rw [← Except.ok.inj hr, mk_length]
                have hre : (restrict r).length = 2 ^ k + 1 := by
                  rw [restrict_length, hrl, hl1, hp]
                  omega
                rw [ih hk (zeros (restrict r).length)
                  ((restrict r).map (fun x => x / h ^ 2)) (2 * h) N f'
                  (by rw [zeros_length, hre]) (by rw [List.length_map, hre])
                  (by omega)]

theorem fmgAux_stable (k : Nat) :
    1 ≤ k → ∀ (F : Field) (h : ℚ) (b : ℚ × ℚ) (N fuel : Nat),
      F.length = 2 ^ k + 1 → k - 1 ≤ fuel →
      fmgAux fuel F h b N = fmgAux (k - 1) F h b N := by
  induction k with
  | zero => omega
  | succ k ih =>
      intro _ F h b N fuel hF hfuel
      by_cases hk0 : k = 0
      · subst hk0
        rw [fmgAux_small (by rw [hF]; norm_num) fuel]
      · have hk : 1 ≤ k := by omega
        have hpow : 4 ≤ 2 ^ (k + 1) := by
          calc 4 = 2 ^ 2 := by norm_num
          _ ≤ 2 ^ (k + 1) := Nat.pow_le_pow_right (by norm_num) (by omega)
        have h2p : 2 ^ (k + 1) = 2 * 2 ^ k := by
          rw [Nat.pow_succ, Nat.mul_comm]
        obtain ⟨f', rfl⟩ : ∃ f', fuel = f' + 1 := ⟨fuel - 1, by omega⟩
        have hkk : k + 1 - 1 = (k - 1) + 1 := by omega
        rw [hkk]
        simp only [fmgAux]
        have hcond : 3 < F.length := by omega
        rw [if_pos hcond, if_pos hcond]
        have hre : (restrict F).length = 2 ^ k + 1 := by
          rw [restrict_length, hF]
          omega
        rw [ih hk (restrict F) (2 * h) b 5 f' hre (by omega)]

/-- C7: on a starting grid of length `2^k + 1` (`k ≥ 1`, i.e. `n = 2^k`
intervals) the recursive V-Cycle and FMG computations terminate within
`k - 1` nested levels: every fuel bound of at least `k - 1` (in
particular the grid length used by `vcycle`/`fmg_vcycle` themselves)
computes the same result as fuel exactly `k - 1`; each restriction maps a
grid of length `L` to one of length `(L+1)/2` (roughly half); and
`k - 1 ≤ log2 n`. -/
theorem multigrid_recursion_depth (k : Nat) (hk : 1 ≤ k)
    (phi F : Field) (h : ℚ) (b : ℚ × ℚ) (N fuel : Nat)
    (hp : phi.length = 2 ^ k + 1) (hF : F.length = 2 ^ k + 1)
    (hfuel : k - 1 ≤ fuel) :
    (∀ v : Field, (restrict v).length = (v.length + 1) / 2) ∧
    vcycleAux fuel phi F h N = vcycleAux (k - 1) phi F h N ∧
    vcycle phi F h N = vcycleAux (k - 1) phi F h N ∧
    fmgAux fuel F h b N = fmgAux (k - 1) F h b N ∧
    fmg_vcycle F h b N = fmgAux (k - 1) F h b N ∧
    k - 1 ≤ Nat.log 2 (2 ^ k) := by
  refine ⟨fun v => restrict_length v,
    vcycleAux_stable k hk phi F h N fuel hp hF hfuel, ?_,
    fmgAux_stable k hk F h b N fuel hF hfuel, ?_, ?_⟩
  · exact vcycleAux_stable k hk phi F h N phi.length hp hF
      (by have := Nat.lt_two_pow k; omega)
  · exact fmgAux_stable k hk F h b N F.length hF
      (by have := Nat.lt_two_pow k; omega)
  · rw [Nat.log_pow (by norm_num)]
    omega

/-- C7 (witness): the theorem applied at `k = 1` with the 3-point grid
`phi = F = [0,0,0]`, `h = 1`, `b = (0,0)`, `N = 0`, fuel 5. -/
theorem multigrid_recursion_depth_witness :
    (1 ≤ 1) ∧ (([0, 0, 0] : Field).length = 2 ^ 1 + 1) ∧ (1 - 1 ≤ 5) ∧
    ((∀ v : Field, (restrict v).length = (v.length + 1) / 2) ∧
     vcycleAux 5 [0, 0, 0] [0, 0, 0] 1 0 = vcycleAux (1 - 1) [0, 0, 0] [0, 0, 0] 1 0 ∧
     vcycle [0, 0, 0] [0, 0, 0] 1 0 = vcycleAux (1 - 1) [0, 0, 0] [0, 0, 0] 1 0 ∧
     fmgAux 5 [0, 0, 0] 1 (0, 0) 0 = fmgAux (1 - 1) [0, 0, 0] 1 (0, 0) 0 ∧
     fmg_vcycle [0, 0, 0] 1 (0, 0) 0 = fmgAux (1 - 1) [0, 0, 0] 1 (0, 0) 0 ∧
     1 - 1 ≤ Nat.log 2 (2 ^ 1)) :=
  ⟨le_refl 1, rfl, by norm_num,
    multigrid_recursion_depth 1 (le_refl 1) [0, 0, 0] [0, 0, 0] 1 (0, 0) 0 5
      rfl rfl (by norm_num)⟩

/-! ### Behaviour on non-conforming grid sizes -/

theorem bop_ok_left_one {f : ℚ → ℚ → ℚ} {a b : Field} (ha : a.length = 1)
    (hne : ¬ a.length = b.length) :
    bop f a b = .ok (b.map (fun y => f (gd a 0) y)) := by
  rw [bop, if_neg hne, if_pos ha]

theorem assignInner_err {dst rhs : Field}
    (h1 : ¬ rhs.length = dst.length - 2) (h2 : ¬ rhs.length = 1) :
    assignInner dst rhs = .error (.asgn (dst.length - 2) rhs.length) := by
  rw [assignInner, if_neg h1, if_neg h2]

/-- On a 2-point grid the Smoother's interior is empty and (in exact
rational arithmetic) the blend `(1-w)*phi + w*phistar` leaves both entries
unchanged, so any number of sweeps returns the input. -/
theorem jacobiStep_pair (x y : ℚ) (F : Field) (h w : ℚ) (hF : F.length = 2) :
    jacobiStep F h w ([x, y], [x, y]) = .ok ([x, y], [x, y]) := by
  rw [@jacobiStep_ok [x, y] [x, y] F h w (by rw [hF]; rfl) rfl]
  have hstar : starNext [x, y] [x, y] F h = [x, y] := by
    apply ext_gd
    · rw [starNext_length]
    · intro i hi
      rw [starNext_length] at hi
      have hi2 : i < 2 := by simpa using hi
      rw [starNext, gd_mk _ hi,
        if_neg (by simp only [List.length_cons, List.length_nil]; omega)]
  simp only [hstar]
  have hblend : mk ([x, y] : Field).length
      (fun j => (1 - w) * gd [x, y] j + w * gd [x, y] j) = [x, y] := by
    apply ext_gd
    · rw [mk_length]
    · intro i hi
      rw [mk_length] at hi
      rw [gd_mk _ hi]
      ring
  rw [hblend]

theorem jacobiIter_pair (x y : ℚ) (F : Field) (h w : ℚ) (hF : F.length = 2)
    (k : Nat) : jacobiIter F h w k ([x, y], [x, y]) = .ok ([x, y], [x, y]) := by
  induction k with
  | zero => rfl
  | succ k ih => rw [jacobiIter, jacobiStep_pair x y F h w hF, ok_bind, ih]

theorem jacobi_pair (x y : ℚ) (F : Field) (h : ℚ) (k : Nat) (w : ℚ)
    (hF : F.length = 2) : jacobi [x, y] F h k w = .ok [x, y] := by
  rw [jacobi, jacobiIter_pair x y F h w hF k]
  rfl

theorem vcycle_pair (x y : ℚ) (F : Field) (h : ℚ) (N : Nat)
    (hF : F.length = 2) : vcycle [x, y] F h N = .ok [x, y] := by
  show vcycleAux 2 [x, y] F h N = .ok [x, y]
  simp only [vcycleAux]
  rw [jacobi_pair x y F h N (2 / 3) hF, ok_bind, if_neg (by norm_num),
    jacobi_pair x y F h N (2 / 3) hF]

theorem fmgLoop_pair (x y : ℚ) (F : Field) (h : ℚ) (hF : F.length = 2)
    (k : Nat) : fmgLoop F h k [x, y] = .ok [x, y] := by
  induction k with
  | zero => rfl
  | succ k ih => rw [fmgLoop, vcycle_pair x y F h 50 hF, ok_bind, ih]

theorem setBndry_zeros_two (b : ℚ × ℚ) : setBndry (zeros 2) b = [b.1, b.2] := by
  simp [setBndry, zeros, List.replicate]

theorem fmg_pair (F : Field) (h : ℚ) (b : ℚ × ℚ) (N : Nat)
    (hF : F.length = 2) : fmg_vcycle F h b N = .ok [b.1, b.2] := by
  rw [fmg_vcycle, hF]
  simp only [fmgAux]
  rw [if_neg (by omega), hF, setBndry_zeros_two]
  exact fmgLoop_pair b.1 b.2 F h hF N

/-- The Smoother on a 3-point field with a 4-point source: numpy broadcasts
the length-2 right-hand side against the length-1 neighbor sums, then the
slice assignment of the resulting length-2 array into the 1-point interior
fails: a shape-mismatch error arises during the first sweep. -/
theorem jacobi_mismatch_3_4 (phi : Field) (hp : phi.length = 3) (F : Field)
    (hF : F.length = 4) (h w : ℚ) (k : Nat) (hk : 1 ≤ k) :
    jacobi phi F h k w = .error (.asgn 1 2) := by
  obtain ⟨m, rfl⟩ : ∃ m, k = m + 1 := ⟨k - 1, by omega⟩
  have hstep : jacobiStep F h w (phi, phi) = .error (.asgn 1 2) := by
    simp only [jacobiStep]
    rw [bop_ok_of_length (by
      simp only [List.length_take, List.length_drop, hp, inf_eq_min]
      omega)]
    rw [ok_bind]
    have hzl : (List.zipWith (· + ·) (phi.take (phi.length - 2))
        (phi.drop 2)).length = 1 := by
      simp only [List.length_zipWith, List.length_take, List.length_drop, hp,
        inf_eq_min]
      omega
    have hil : (((F.drop 1).take (F.length - 2)).map
        (fun x => h ^ 2 * x)).length = 2 := by
      simp only [List.length_map, List.length_take, List.length_drop, hF,
        inf_eq_min]
      omega
    rw [bop_ok_left_one hzl (by rw [hzl]; rw [List.length_map] at hil ⊢; omega),
      ok_bind]
    rw [assignInner_err (by simp only [List.length_map] at hil ⊢; omega)
      (by simp only [List.length_map] at hil ⊢; omega), error_bind]
    simp only [List.length_map] at hil
    simp only [List.length_map, hil, hp]
  rw [jacobi, jacobiIter, hstep, error_bind]
  rfl

theorem vcycle_mismatch_3_4 (phi : Field) (hp : phi.length = 3) (F : Field)
    (hF : F.length = 4) (h : ℚ) (N : Nat) (hN : 1 ≤ N) :
    vcycle phi F h N = .error (.asgn 1 2) := by
  rw [vcycle, hp]
  simp only [vcycleAux]
  rw [jacobi_mismatch_3_4 phi hp F hF h (2 / 3) N hN, error_bind]

theorem restrict_zeros (L : Nat) : restrict (zeros L) = zeros ((L + 1) / 2) := by
  apply ext_gd
  · rw [restrict_length, zeros_length, zeros_length]
  · intro i hi
    rw [restrict_length, zeros_length] at hi
    rw [gd_zeros, restrict, gd_mk _ (by rw [zeros_length]; omega)]
    by_cases h1 : i = ((zeros L).length + 1) / 2 - 1
    · rw [if_pos h1, gd_zeros]
    · rw [if_neg h1]
      by_cases h0 : i = 0
      · rw [if_pos h0, gd_zeros]
      · rw [if_neg h0, gd_zeros, gd_zeros, gd_zeros]
        ring

theorem prolong_pair (x y : ℚ) : prolong [x, y] = [x, (1 / 2) * (x + y), y] := by
  norm_num [prolong, mk, List.range_succ, gd]

theorem fmgAux_term_two (h : ℚ) (b : ℚ × ℚ) (N fuel : Nat) :
    fmgAux fuel (zeros 2) h b N = .ok [b.1, b.2] := by
  rw [fmgAux_small (by rw [zeros_length]; omega) fuel, fmgAux, zeros_length,
    setBndry_zeros_two]
  exact fmgLoop_pair b.1 b.2 (zeros 2) h (by rw [zeros_length]) N

theorem fmgAux_err_four (h : ℚ) (b : ℚ × ℚ) (fuel : Nat) :
    fmgAux (fuel + 1) (zeros 4) h b 5 = .error (.asgn 1 2) := by
  rw [fmgAux, if_pos (by rw [zeros_length]; omega),
    show restrict (zeros 4) = zeros 2 from by rw [restrict_zeros],
    fmgAux_term_two, ok_bind, prolong_pair,
    show (5 : Nat) = 4 + 1 from rfl, fmgLoop,
    vcycle_mismatch_3_4 [b.1, (1 / 2) * (b.1 + b.2), b.2] rfl (zeros 4)
      (by rw [zeros_length]) h 50 (by omega), error_bind]

/-- C5 (counterexample): `solve` on `n = 1` — grid length 2, which is not
reducible by halving to a 3-point terminal grid — does not fail with any
`InvalidGridSize` error: no such validation exists in the code, the
computation runs (terminal initialization plus five V-cycles of 100 sweeps
each on the 2-point grid) and completes normally with the boundary values. -/
theorem solve_invalid_grid_counterexample : solve (1, 0) 1 = .ok [1, 0] := by
  rw [solve]
  exact fmg_pair (zeros (1 + 1)) (1 / ((1 : Nat) : ℚ)) (1, 0) 5
    (by rw [zeros_length])

/-- C5 (amended): the code performs no grid-size validation and defines no
`InvalidGridSize` error.  On a non-reducible grid size the recursion simply
proceeds: with `n = 6` (grid length 7) the two coarse levels are computed
(the 2-point terminal level completes normally) and the run then fails in
the middle of the computation with an array-shape mismatch — numpy cannot
assign the broadcast length-2 right-hand side into the 1-point interior of
the prolonged length-3 field — while with `n = 1` (grid length 2) the
whole solve completes normally, returning the boundary values. -/
theorem solve_no_validation :
    solve (1, 0) 6 = .error (.asgn 1 2) ∧ solve (1, 0) 1 = .ok [1, 0] := by
  constructor
  · rw [solve, fmg_vcycle, zeros_length, fmgAux,
      if_pos (by rw [zeros_length]; omega),
      show restrict (zeros (6 + 1)) = zeros 4 from by rw [restrict_zeros],
      show (6 : Nat) = 5 + 1 from rfl, fmgAux_err_four, error_bind]
  · rw [solve]
    exact fmg_pair (zeros (1 + 1)) (1 / ((1 : Nat) : ℚ)) (1, 0) 5
      (by rw [zeros_length])


/-! ### Error versus the exact solution: the V-cycle sweep count -/

/-- The exact linear solution `a + (b-a)*i/n` sampled on the grid. -/
def lin (a b : ℚ) (n : Nat) : Field := mk (n + 1) (fun i => a + (b - a) * i / n)

/-- Maximum over the grid of the absolute pointwise difference. -/
def maxAbsErr (xs ys : Field) : ℚ :=
  (List.zipWith (fun x y => |x - y|) xs ys).foldr max 0

theorem foldr_max_nonneg (l : List ℚ) : 0 ≤ l.foldr max 0 := by
  induction l with
  | nil => exact le_refl 0
  | cons x xs ih => exact le_max_of_le_right ih

theorem foldr_max_ge (l : List ℚ) :
    ∀ i, i < l.length → gd l i ≤ l.foldr max 0 := by
  induction l with
  | nil =>
      intro i hi
      simp at hi
  | cons x xs ih =>
      intro i hi
      cases i with
      | zero => exact le_max_left x _
      | succ i =>
          rw [gd_cons_succ]
          exact le_trans (ih i (by simpa using hi)) (le_max_right x _)

theorem foldr_max_le (l : List ℚ) (c : ℚ) (hc : 0 ≤ c)
    (h : ∀ i, i < l.length → gd l i ≤ c) : l.foldr max 0 ≤ c := by
  induction l with
  | nil => exact hc
  | cons x xs ih =>
      refine max_le (h 0 (by simp)) (ih ?_)
      intro i hi
      have := h (i + 1) (by simpa using Nat.succ_lt_succ hi)
      rwa [gd_cons_succ] at this

theorem maxAbsErr_nonneg (xs ys : Field) : 0 ≤ maxAbsErr xs ys :=
  foldr_max_nonneg _

theorem le_maxAbsErr (xs ys : Field) (j : Nat) (h1 : j < xs.length)
    (h2 : j < ys.length) : |gd xs j - gd ys j| ≤ maxAbsErr xs ys := by
  have := foldr_max_ge (List.zipWith (fun x y => |x - y|) xs ys) j
    (by simp only [List.length_zipWith]; omega)
  rwa [gd_zipWith _ h1 h2] at this

theorem maxAbsErr_le (xs ys : Field) (c : ℚ) (hc : 0 ≤ c)
    (h : ∀ j, j < xs.length → |gd xs j - gd ys j| ≤ c) :
    maxAbsErr xs ys ≤ c := by
  refine foldr_max_le _ c hc ?_
  intro i hi
  simp only [List.length_zipWith] at hi
  rw [gd_zipWith _ (by omega) (by omega)]
  exact h i (by omega)

theorem lin_length (a b : ℚ) (n : Nat) : (lin a b n).length = n + 1 := by
  simp [lin, mk_length]

/-- One damped-Jacobi sweep (weight `2/3`) with zero source never increases
the maximum absolute error against the exact linear solution. -/
theorem sweep_error_nonincreasing (psi : Field) (a b h : ℚ) (n : Nat)
    (hpsi : psi.length = n + 1) (hn : 1 ≤ n) :
    maxAbsErr (jacobiSweepSpec (zeros (n + 1)) h (2 / 3) psi) (lin a b n) ≤
      maxAbsErr psi (lin a b n) := by
  refine maxAbsErr_le _ _ _ (maxAbsErr_nonneg psi (lin a b n)) ?_
  intro j hj
  rw [jacobiSweepSpec_length, hpsi] at hj
  by_cases hint : 0 < j ∧ j + 1 < psi.length
  · have hlid : gd (lin a b n) (j - 1) + gd (lin a b n) (j + 1) =
        2 * gd (lin a b n) j := by
      rw [lin, gd_mk _ (by omega), gd_mk _ (by omega), gd_mk _ (by omega)]
      have hc1 : ((j - 1 : ℕ) : ℚ) = (j : ℚ) - 1 := by
        push_cast [Nat.cast_sub (show 1 ≤ j by omega)]
        ring
      rw [hc1]
      push_cast
      have hnq : (n : ℚ) ≠ 0 := Nat.cast_ne_zero.mpr (by omega)
      field_simp
      ring
    have hsj : gd (jacobiSweepSpec (zeros (n + 1)) h (2 / 3) psi) j -
        gd (lin a b n) j =
        (1 / 3) * (gd psi j - gd (lin a b n) j) +
        (1 / 3) * (gd psi (j - 1) - gd (lin a b n) (j - 1)) +
        (1 / 3) * (gd psi (j + 1) - gd (lin a b n) (j + 1)) := by
      rw [jacobiSweepSpec, gd_mk _ (by omega), if_pos hint, gd_zeros]
      linear_combination (1 / 3) * hlid
    rw [hsj]
    calc |(1 / 3) * (gd psi j - gd (lin a b n) j) +
          (1 / 3) * (gd psi (j - 1) - gd (lin a b n) (j - 1)) +
          (1 / 3) * (gd psi (j + 1) - gd (lin a b n) (j + 1))|
        ≤ |(1 / 3) * (gd psi j - gd (lin a b n) j)| +
          |(1 / 3) * (gd psi (j - 1) - gd (lin a b n) (j - 1))| +
          |(1 / 3) * (gd psi (j + 1) - gd (lin a b n) (j + 1))| :=
          abs_add_three _ _ _
      _ = (1 / 3) * |gd psi j - gd (lin a b n) j| +
          (1 / 3) * |gd psi (j - 1) - gd (lin a b n) (j - 1)| +
          (1 / 3) * |gd psi (j + 1) - gd (lin a b n) (j + 1)| := by
          rw [abs_mul, abs_mul, abs_mul]
          simp only [abs_of_nonneg (show (0:ℚ) ≤ 1 / 3 by norm_num)]
      _ ≤ (1 / 3) * maxAbsErr psi (lin a b n) +
          (1 / 3) * maxAbsErr psi (lin a b n) +
          (1 / 3) * maxAbsErr psi (lin a b n) := by
          have e1 := le_maxAbsErr psi (lin a b n) j (by omega)
            (by rw [lin_length]; omega)
          have e2 := le_maxAbsErr psi (lin a b n) (j - 1) (by omega)
            (by rw [lin_length]; omega)
          have e3 := le_maxAbsErr psi (lin a b n) (j + 1) (by omega)
            (by rw [lin_length]; omega)
          have h3 : (0 : ℚ) ≤ 1 / 3 := by norm_num
          have m1 := mul_le_mul_of_nonneg_left e1 h3
          have m2 := mul_le_mul_of_nonneg_left e2 h3
          have m3 := mul_le_mul_of_nonneg_left e3 h3
          linarith
      _ = maxAbsErr psi (lin a b n) := by ring
  · rw [jacobiSweepSpec, gd_mk _ (by omega), if_neg hint]
    exact le_maxAbsErr psi (lin a b n) j (by omega) (by rw [lin_length]; omega)

/-- Structured evaluation of the `Niter = 1` V-cycle on `[0,-1,0,-1,0]`. -/
theorem vcycle_niter_one_eval :
    vcycle [0, -1, 0, -1, 0] (zeros 5) (1 / 4) 1 =
      .ok [0, -1/27, -4/81, -1/27, 0] := by
  have hA : jacobi [0, -1, 0, -1, 0] (zeros 5) (1 / 4) 1 (2 / 3) =
      .ok [0, -1/3, -2/3, -1/3, 0] := by
    norm_num [jacobi, jacobiIter, jacobiStep, bop, assignInner, zeros,
      List.replicate, gd, ok_bind, Except.map]
  have hR : residual [0, -1/3, -2/3, -1/3, 0] (zeros 5) (1 / 4) =
      .ok [0, 0, 2/3, 0, 0] := by
    norm_num [residual, bop, mk, gd, zeros, List.replicate, List.range_succ]
  have hF2 : restrict [0, 0, 2/3, 0, 0] = [0, 1/3, 0] := by
    norm_num [restrict, mk, gd, List.range_succ]
  have hG : ([0, 1/3, 0] : Field).map (fun x => x / (1/4 : ℚ) ^ 2) =
      [0, 16/3, 0] := by
    norm_num
  have hB : jacobi (zeros 3) [0, 16/3, 0] (2 * (1 / 4)) 1 (2 / 3) =
      .ok [0, 4/9, 0] := by
    norm_num [jacobi, jacobiIter, jacobiStep, bop, assignInner, zeros,
      List.replicate, gd, ok_bind, Except.map]
  have hC : jacobi [0, 4/9, 0] [0, 16/3, 0] (2 * (1 / 4)) 1 (2 / 3) =
      .ok [0, 16/27, 0] := by
    norm_num [jacobi, jacobiIter, jacobiStep, bop, assignInner, gd, ok_bind, Except.map]
  have hP : prolong [0, 16/27, 0] = [0, 8/27, 16/27, 8/27, 0] := by
    norm_num [prolong, mk, gd, List.range_succ]
  have hD : bop (· + ·) [0, -1/3, -2/3, -1/3, 0]
      [0, 8/27, 16/27, 8/27, 0] = .ok [0, -1/27, -2/27, -1/27, 0] := by
    norm_num [bop]
  have hE : jacobi [0, -1/27, -2/27, -1/27, 0] (zeros 5) (1 / 4) 1 (2 / 3) =
      .ok [0, -1/27, -4/81, -1/27, 0] := by
    norm_num [jacobi, jacobiIter, jacobiStep, bop, assignInner, zeros,
      List.replicate, gd, ok_bind, Except.map]
  show vcycleAux 5 [0, -1, 0, -1, 0] (zeros 5) (1 / 4) 1 =
    .ok [0, -1/27, -4/81, -1/27, 0]
  rw [show (5 : Nat) = 4 + 1 from rfl, vcycleAux, hA, ok_bind,
    if_pos (by norm_num), hR, ok_bind, hF2]
  simp only []
  rw [show (List.length ([0, 1/3, 0] : Field)) = 3 from rfl, hG,
    vcycleAux_small (by norm_num [zeros_length]) 4, vcycleAux, hB, ok_bind, hC,
    ok_bind, hP, hD, ok_bind, hE]

/-- Structured evaluation of the `Niter = 2` V-cycle on `[0,-1,0,-1,0]`. -/
theorem vcycle_niter_two_eval :
    vcycle [0, -1, 0, -1, 0] (zeros 5) (1 / 4) 2 =
      .ok [0, -257/6561, -344/6561, -257/6561, 0] := by
  have hA : jacobi [0, -1, 0, -1, 0] (zeros 5) (1 / 4) 2 (2 / 3) =
      .ok [0, -1/3, -4/9, -1/3, 0] := by
    norm_num [jacobi, jacobiIter, jacobiStep, bop, assignInner, zeros,
      List.replicate, gd, ok_bind, Except.map]
  have hR : residual [0, -1/3, -4/9, -1/3, 0] (zeros 5) (1 / 4) =
      .ok [0, 2/9, 2/9, 2/9, 0] := by
    norm_num [residual, bop, mk, gd, zeros, List.replicate, List.range_succ]
  have hF2 : restrict [0, 2/9, 2/9, 2/9, 0] = [0, 2/9, 0] := by
    norm_num [restrict, mk, gd, List.range_succ]
  have hG : ([0, 2/9, 0] : Field).map (fun x => x / (1/4 : ℚ) ^ 2) =
      [0, 32/9, 0] := by
    norm_num
  have hB : jacobi (zeros 3) [0, 32/9, 0] (2 * (1 / 4)) 2 (2 / 3) =
      .ok [0, 32/81, 0] := by
    norm_num [jacobi, jacobiIter, jacobiStep, bop, assignInner, zeros,
      List.replicate, gd, ok_bind, Except.map]
  have hC : jacobi [0, 32/81, 0] [0, 32/9, 0] (2 * (1 / 4)) 2 (2 / 3) =
      .ok [0, 320/729, 0] := by
    norm_num [jacobi, jacobiIter, jacobiStep, bop, assignInner, gd, ok_bind, Except.map]
  have hP : prolong [0, 320/729, 0] = [0, 160/729, 320/729, 160/729, 0] := by
    norm_num [prolong, mk, gd, List.range_succ]
  have hD : bop (· + ·) [0, -1/3, -4/9, -1/3, 0]
      [0, 160/729, 320/729, 160/729, 0] =
      .ok [0, -83/729, -4/729, -83/729, 0] := by
    norm_num [bop]
  have hE : jacobi [0, -83/729, -4/729, -83/729, 0] (zeros 5) (1 / 4) 2
      (2 / 3) = .ok [0, -257/6561, -344/6561, -257/6561, 0] := by
    norm_num [jacobi, jacobiIter, jacobiStep, bop, assignInner, zeros,
      List.replicate, gd, ok_bind, Except.map]
  show vcycleAux 5 [0, -1, 0, -1, 0] (zeros 5) (1 / 4) 2 =
    .ok [0, -257/6561, -344/6561, -257/6561, 0]
  rw [show (5 : Nat) = 4 + 1 from rfl, vcycleAux, hA, ok_bind,
    if_pos (by norm_num), hR, ok_bind, hF2]
  simp only []
  rw [show (List.length ([0, 2/9, 0] : Field)) = 3 from rfl, hG,
    vcycleAux_small (by norm_num [zeros_length]) 4, vcycleAux, hB, ok_bind, hC,
    ok_bind, hP, hD, ok_bind, hE]

/-! ### Error versus the exact solution: the FMG ascent count.  On a 3-point
grid everything has a closed form: each damped-Jacobi sweep (weight `2/3`)
moves the middle entry a third of the way to the discrete fixed point
`S = (x + y + h^2*F_1)/2`, so `s` sweeps leave `S + (m - S)/3^s`; a V-cycle
is two `Niter`-sweep smoothings, and the FMG ascent loop runs `Niter`
V-cycles of 50 sweeps each.  The iterates therefore converge to the
DISCRETE solution `S`, which differs from the sampled continuum exact
solution by the discretization error; when the initial iterate partially
cancels that gap, more ascent cycles INCREASE the error versus the exact
solution. -/

/-- The sampled source `F(x_i) = 192*x_i^2` on the 3-point grid `x_i = i/2`
of `n = 2` intervals (`h = 1/2`): `[0, 48, 192]`. -/
def quadSource : Field := [0, 48, 192]

/-- The exact solution of the continuum problem `-u'' = F`, `u(0) = -13`,
`u(1) = 0` for the source `F(x) = 192*x^2`: `u(x) = -13 + 29*x - 16*x^4`
(modelled from the specification's words "the exact solution"; the program
has no such function).  `uExact_solves_poisson` below certifies it. -/
def uExact (x : ℚ) : ℚ := -13 + 29 * x - 16 * x ^ 4

/-- The exact solution sampled on the 3-point grid `x_i = i/2`. -/
def exactSamples : Field := mk 3 (fun i => uExact ((i : ℚ) / 2))

/-- Certificate that `uExact`, read over `ℝ`, really is the exact solution:
its second derivative is `-(192*x^2)` — the negative of the source, matching
the sign convention of `residual` (`2*phi_j - phi_{j-1} - phi_{j+1} =
h^2*F_j` discretizes `-u'' = F`) — it attains the boundary pair `(-13, 0)`,
and the rational `uExact` is its restriction. -/
theorem uExact_solves_poisson :
    (∀ x : ℝ, deriv (deriv (fun y : ℝ => -13 + 29 * y - 16 * y ^ 4)) x =
      -(192 * x ^ 2)) ∧
    (∀ q : ℚ, ((uExact q : ℚ) : ℝ) = -13 + 29 * (q : ℝ) - 16 * (q : ℝ) ^ 4) ∧
    uExact 0 = -13 ∧ uExact 1 = 0 := by
  have hd1 : deriv (fun y : ℝ => -13 + 29 * y - 16 * y ^ 4) =
      fun y : ℝ => 29 - 64 * y ^ 3 := by
    funext y
    have c4 := (((hasDerivAt_id y).const_mul (29 : ℝ)).const_add
      (-13 : ℝ)).sub ((hasDerivAt_pow 4 y).const_mul (16 : ℝ))
    have c5 : HasDerivAt (fun y : ℝ => -13 + 29 * y - 16 * y ^ 4)
        (29 - 64 * y ^ 3) y := by
      convert c4 using 1
      norm_num
      ring
    exact c5.deriv
  refine ⟨?_, ?_, by norm_num [uExact], by norm_num [uExact]⟩
  · intro x
    rw [hd1]
    have c3 := (hasDerivAt_const x (29 : ℝ)).sub
      ((hasDerivAt_pow 3 x).const_mul (64 : ℝ))
    have c6 : HasDerivAt (fun y : ℝ => 29 - 64 * y ^ 3) (-(192 * x ^ 2)) x := by
      convert c3 using 1
      norm_num
      ring
    exact c6.deriv
  · intro q
    push_cast [uExact]
    ring

/-- One damped-Jacobi sweep (weight `2/3`) on a 3-point grid in closed form:
the ends are fixed and the middle becomes `m/3 + (x + y + h^2*F_1)/3`. -/
theorem sweepSpec_three (F : Field) (h x m y : ℚ) :
    jacobiSweepSpec F h (2 / 3) [x, m, y] =
      [x, m / 3 + (x + y + h ^ 2 * gd F 1) / 3, y] := by
  norm_num [jacobiSweepSpec, mk, List.range_succ, gd]
  ring

/-- `s` sweeps on a 3-point grid: the middle converges geometrically (ratio
`1/3`) to the discrete fixed point `S = (x + y + h^2*F_1)/2`. -/
theorem sweepSpec_three_iterate (F : Field) (h x m y : ℚ) (s : Nat) :
    (jacobiSweepSpec F h (2 / 3))^[s] [x, m, y] =
      [x, (x + y + h ^ 2 * gd F 1) / 2 +
        (m - (x + y + h ^ 2 * gd F 1) / 2) / 3 ^ s, y] := by
  induction s with
  | zero =>
      simp only [Function.iterate_zero_apply, pow_zero, div_one,
        List.cons.injEq, and_true, true_and]
      ring
  | succ s ih =>
      rw [Function.iterate_succ_apply', ih, sweepSpec_three]
      simp only [List.cons.injEq, and_true, true_and]
      have h3 : (3 : ℚ) ^ s ≠ 0 := pow_ne_zero _ (by norm_num)
      have h3s : (3 : ℚ) ^ (s + 1) ≠ 0 := pow_ne_zero _ (by norm_num)
      field_simp
      ring

/-- The Smoother on a 3-point grid in closed form. -/
theorem jacobi_three (F : Field) (hF : F.length = 3) (h x m y : ℚ) (s : Nat) :
    jacobi [x, m, y] F h s (2 / 3) =
      .ok [x, (x + y + h ^ 2 * gd F 1) / 2 +
        (m - (x + y + h ^ 2 * gd F 1) / 2) / 3 ^ s, y] := by
  rw [jacobi_spec_eq [x, m, y] F h s (2 / 3) (by rw [hF]; rfl),
    sweepSpec_three_iterate]

/-- A V-cycle on a 3-point grid is two `N`-sweep smoothings (the coarse
branch is skipped), hence `2*N` sweeps in closed form. -/
theorem vcycle_three (F : Field) (hF : F.length = 3) (h x m y : ℚ) (N : Nat) :
    vcycle [x, m, y] F h N =
      .ok [x, (x + y + h ^ 2 * gd F 1) / 2 +
        (m - (x + y + h ^ 2 * gd F 1) / 2) / 3 ^ (2 * N), y] := by
  show vcycleAux 3 [x, m, y] F h N = _
  rw [show (3 : Nat) = 2 + 1 from rfl, vcycleAux, jacobi_three F hF h x m y N,
    ok_bind, if_neg (by simp), jacobi_three F hF h x _ y N]
  simp only [Except.ok.injEq, List.cons.injEq, and_true, true_and]
  have h3 : (3 : ℚ) ^ N ≠ 0 := pow_ne_zero _ (by norm_num)
  have h32 : (3 : ℚ) ^ (2 * N) ≠ 0 := pow_ne_zero _ (by norm_num)
  field_simp
  ring

/-- The FMG ascent loop on a 3-point grid: `k` V-cycles of 50 sweeps each,
`100*k` sweeps in closed form. -/
theorem fmgLoop_three (F : Field) (hF : F.length = 3) (h x y : ℚ) (k : Nat) :
    ∀ m : ℚ, fmgLoop F h k [x, m, y] =
      .ok [x, (x + y + h ^ 2 * gd F 1) / 2 +
        (m - (x + y + h ^ 2 * gd F 1) / 2) / 3 ^ (100 * k), y] := by
  induction k with
  | zero =>
      intro m
      rw [fmgLoop]
      simp only [Nat.mul_zero, pow_zero, div_one, Except.ok.injEq,
        List.cons.injEq, and_true, true_and]
      ring
  | succ k ih =>
      intro m
      rw [fmgLoop, vcycle_three F hF h x m y 50, ok_bind, ih _]
      simp only [Except.ok.injEq, List.cons.injEq, and_true, true_and]
      have h1 : (3 : ℚ) ^ (2 * 50) ≠ 0 := pow_ne_zero _ (by norm_num)
      have h2 : (3 : ℚ) ^ (100 * k) ≠ 0 := pow_ne_zero _ (by norm_num)
      have h3 : (3 : ℚ) ^ (100 * (k + 1)) ≠ 0 := pow_ne_zero _ (by norm_num)
      field_simp
      ring

theorem setBndry_zeros_three (b : ℚ × ℚ) :
    setBndry (zeros 3) b = [b.1, 0, b.2] := rfl

/-- The FMG Controller on a 3-point grid in closed form: the terminal
initialization is `[b.1, 0, b.2]` and the ascent loop runs `Niter` V-cycles,
so the middle is `S - S/3^(100*Niter)` with `S` the discrete solution. -/
theorem fmg_three (F : Field) (hF : F.length = 3) (h : ℚ) (b : ℚ × ℚ)
    (k : Nat) :
    fmg_vcycle F h b k =
      .ok [b.1, (b.1 + b.2 + h ^ 2 * gd F 1) / 2 +
        (0 - (b.1 + b.2 + h ^ 2 * gd F 1) / 2) / 3 ^ (100 * k), b.2] := by
  rw [fmg_vcycle, hF, show (3 : Nat) = 2 + 1 from rfl, fmgAux,
    if_neg (by simp [hF]), hF, setBndry_zeros_three,
    fmgLoop_three F hF h b.1 b.2 k 0]

/-- C6 (counterexample, both conjuncts): (i) per-level sweep count: with
zero source on `n = 4` intervals and boundary pair `(0,0)` — whose exact
solution is identically zero — starting from `phi = [0,-1,0,-1,0]`, one
V-cycle with per-level sweep count `Niter = 1` leaves a maximum absolute
error of `4/81`, while `Niter = 2` leaves `344/6561 > 4/81 = 324/6561`.
(ii) FMG ascent count: with the source `192*x^2` sampled on `n = 2`
intervals (`quadSource = [0, 48, 192]`, `h = 1/2`) and boundary pair
`(-13, 0)`, whose exact solution is `uExact = -13 + 29*x - 16*x^4` (see
`uExact_solves_poisson`), the FMG Controller with ascent count `Niter = 1`
leaves a maximum absolute error of `1 - 1/(2*3^100)`, while `Niter = 2`
leaves the strictly larger `1 - 1/(2*3^200)`: the iterates converge to the
discrete middle value `-1/2`, overshooting the exact `u(1/2) = 1/2`, so
every further ascent cycle moves the output away from the exact solution.
Hence the maximum absolute error versus the exact solution is
non-increasing neither in the per-level sweep count nor in the FMG ascent
count. -/
theorem error_not_monotone_counterexample :
    (vcycle [0, -1, 0, -1, 0] (zeros 5) (1 / 4) 1 =
      .ok [0, -1/27, -4/81, -1/27, 0] ∧
    vcycle [0, -1, 0, -1, 0] (zeros 5) (1 / 4) 2 =
      .ok [0, -257/6561, -344/6561, -257/6561, 0] ∧
    lin 0 0 4 = [0, 0, 0, 0, 0] ∧
    maxAbsErr [0, -1/27, -4/81, -1/27, 0] (lin 0 0 4) = 4/81 ∧
    maxAbsErr [0, -257/6561, -344/6561, -257/6561, 0] (lin 0 0 4) =
      344/6561 ∧
    (4/81 : ℚ) < 344/6561) ∧
    (quadSource = mk 3 (fun i => 192 * ((i : ℚ) / 2) ^ 2) ∧
    exactSamples = [-13, 1/2, 0] ∧
    fmg_vcycle quadSource (1 / 2) (-13, 0) 1 =
      .ok [-13, -(1/2) + 1 / (2 * 3 ^ 100), 0] ∧
    fmg_vcycle quadSource (1 / 2) (-13, 0) 2 =
      .ok [-13, -(1/2) + 1 / (2 * 3 ^ 200), 0] ∧
    maxAbsErr [-13, -(1/2) + 1 / (2 * 3 ^ 100), 0] exactSamples =
      1 - 1 / (2 * 3 ^ 100) ∧
    maxAbsErr [-13, -(1/2) + 1 / (2 * 3 ^ 200), 0] exactSamples =
      1 - 1 / (2 * 3 ^ 200) ∧
    (1 - 1 / (2 * 3 ^ 100) : ℚ) < 1 - 1 / (2 * 3 ^ 200)) := by
  have hlin : lin 0 0 4 = [0, 0, 0, 0, 0] := by
    norm_num [lin, mk, List.range_succ]
  have hex : exactSamples = [-13, 1/2, 0] := by
    norm_num [exactSamples, uExact, mk, List.range_succ]
  refine ⟨⟨vcycle_niter_one_eval, vcycle_niter_two_eval, hlin, ?_, ?_,
      by norm_num⟩,
    ⟨by norm_num [quadSource, mk, List.range_succ], hex, ?_, ?_, ?_, ?_,
      by norm_num⟩⟩
  · rw [hlin]
    norm_num [maxAbsErr, abs_eq_max_neg, max_def]
  · rw [hlin]
    norm_num [maxAbsErr, abs_eq_max_neg, max_def]
  · rw [fmg_three quadSource rfl (1 / 2) (-13, 0) 1]
    norm_num [quadSource, gd]
  · rw [fmg_three quadSource rfl (1 / 2) (-13, 0) 2]
    norm_num [quadSource, gd]
  · rw [hex]
    norm_num [maxAbsErr, abs_eq_max_neg, max_def]
  · rw [hex]
    norm_num [maxAbsErr, abs_eq_max_neg, max_def]

/-- C6 (amended): the maximum absolute error against the exact solution is
monotone neither in the V-cycle sweep count nor in the FMG ascent count
(see the counterexample, which refutes both conjuncts); what does hold is
monotonicity for the Smoother alone with zero source: on a grid of
`n+1` points (`n ≥ 1`), `k+1` damped-Jacobi sweeps (default weight `2/3`)
never leave a larger maximum absolute error against the exact linear
solution `a + (b-a)·i/n` than `k` sweeps do, for every starting field and
every spacing `h`. -/
theorem jacobi_error_monotone (phi : Field) (a b h : ℚ) (n k : Nat)
    (hphi : phi.length = n + 1) (hn : 1 ≤ n) :
    jacobi phi (zeros (n + 1)) h k (2 / 3) =
      .ok ((jacobiSweepSpec (zeros (n + 1)) h (2 / 3))^[k] phi) ∧
    jacobi phi (zeros (n + 1)) h (k + 1) (2 / 3) =
      .ok ((jacobiSweepSpec (zeros (n + 1)) h (2 / 3))^[k + 1] phi) ∧
    maxAbsErr ((jacobiSweepSpec (zeros (n + 1)) h (2 / 3))^[k + 1] phi)
        (lin a b n) ≤
      maxAbsErr ((jacobiSweepSpec (zeros (n + 1)) h (2 / 3))^[k] phi)
        (lin a b n) := by
  refine ⟨jacobi_spec_eq phi (zeros (n + 1)) h k (2 / 3)
      (by rw [hphi, zeros_length]),
    jacobi_spec_eq phi (zeros (n + 1)) h (k + 1) (2 / 3)
      (by rw [hphi, zeros_length]), ?_⟩
  rw [Function.iterate_succ_apply']
  exact sweep_error_nonincreasing _ a b h n
    (by rw [jacobiSweepSpec_iterate_length, hphi]) hn

/-- C6 (witness of the amended theorem): applied at `phi = [0, 5, 0]`
(`n = 2`, boundary `(0,0)`, `h = 1`, `k = 0`). -/
theorem jacobi_error_monotone_witness :
    (([0, 5, 0] : Field).length = 2 + 1) ∧ (1 ≤ 2) ∧
    (jacobi [0, 5, 0] (zeros (2 + 1)) 1 0 (2 / 3) =
        .ok ((jacobiSweepSpec (zeros (2 + 1)) 1 (2 / 3))^[0] [0, 5, 0]) ∧
     jacobi [0, 5, 0] (zeros (2 + 1)) 1 (0 + 1) (2 / 3) =
        .ok ((jacobiSweepSpec (zeros (2 + 1)) 1 (2 / 3))^[0 + 1] [0, 5, 0]) ∧
     maxAbsErr ((jacobiSweepSpec (zeros (2 + 1)) 1 (2 / 3))^[0 + 1] [0, 5, 0])
        (lin 0 0 2) ≤
      maxAbsErr ((jacobiSweepSpec (zeros (2 + 1)) 1 (2 / 3))^[0] [0, 5, 0])
        (lin 0 0 2)) :=
  ⟨rfl, by norm_num,
    jacobi_error_monotone [0, 5, 0] 0 0 1 2 0 rfl (by norm_num)⟩

end Multigrid
